import Mathlib

/-!
Verification development for the GAIN-GRN secondary-structure indexing core
(`sse_func.py`): score-array construction and boundary detection
(`find_boundaries`), fuzzy element grouping (`count_domain_sses`),
anchor naming (`make_anchor_dict`), ambiguity resolution
(`disambiguate_anchors`), per-element classification in `create_indexing`,
and the alignment-index mapping (`find_the_start` / `get_indices`).

Modelling conventions: numpy arrays are `List`s; Python ints are `Nat`/`Int`
(indices are natural numbers where the source only produces non-negative
values); float scores are `Rat`; Python dictionaries are association lists
with last-write-wins lookup; exceptions are `Option`/`Except`.
-/

/-- Numpy slice assignment `l[a:b] = v` (half-open, clipped to the array). -/
def setRangeQ (l : List ℚ) (a b : ℕ) (v : ℚ) : List ℚ :=
  (List.range l.length).map fun i => if a ≤ i ∧ i < b then v else l.getD i 0

/-- Score array built by `find_boundaries` (sse_func.py lines 349-354):
`np.full([seq_len], coil_weight)`, then each helix interval is written as -1
and each strand interval as +1, both with half-open numpy slices
`scored_seq[first:last]`, helices first and strands second. -/
def scoredSeq (seq_len : ℕ) (coil : ℚ) (helices sheets : List (ℕ × ℕ)) : List ℚ :=
  sheets.foldl (fun acc p => setRangeQ acc p.1 p.2 1)
    (helices.foldl (fun acc p => setRangeQ acc p.1 p.2 (-1)) (List.replicate seq_len coil))

theorem length_setRangeQ (l : List ℚ) (a b : ℕ) (v : ℚ) :
    (setRangeQ l a b v).length = l.length := by
  simp [setRangeQ]

theorem getD_map_range {α : Type _} (f : ℕ → α) (n i : ℕ) (d : α) (h : i < n) :
    ((List.range n).map f).getD i d = f i := by
  rw [List.getD_eq_getElem?_getD]
  rw [List.getElem?_map]
  rw [List.getElem?_range h]
  rfl

theorem getD_setRangeQ (l : List ℚ) (a b : ℕ) (v : ℚ) (i : ℕ) (h : i < l.length) :
    (setRangeQ l a b v).getD i 0 = if a ≤ i ∧ i < b then v else l.getD i 0 := by
  unfold setRangeQ
  rw [getD_map_range _ _ _ _ h]

theorem length_foldl_setRangeQ (ps : List (ℕ × ℕ)) (v : ℚ) (acc : List ℚ) :
    (ps.foldl (fun a p => setRangeQ a p.1 p.2 v) acc).length = acc.length := by
  induction ps generalizing acc with
  | nil => rfl
  | cons p t ih => simpa [length_setRangeQ] using ih (setRangeQ acc p.1 p.2 v)

theorem getD_foldl_setRangeQ (ps : List (ℕ × ℕ)) (v : ℚ) (acc : List ℚ) (i : ℕ)
    (h : i < acc.length) :
    (ps.foldl (fun a p => setRangeQ a p.1 p.2 v) acc).getD i 0 =
      if ∃ p ∈ ps, p.1 ≤ i ∧ i < p.2 then v else acc.getD i 0 := by
  induction ps generalizing acc with
  | nil => simp
  | cons p t ih =>
    have h' : i < (setRangeQ acc p.1 p.2 v).length := by rwa [length_setRangeQ]
    rw [List.foldl_cons, ih _ h', getD_setRangeQ _ _ _ _ _ h]
    by_cases hex : ∃ q ∈ t, q.1 ≤ i ∧ i < q.2
    · simp [hex]
    · by_cases hp : p.1 ≤ i ∧ i < p.2
      · simp [hex, hp]
      · simp only [hex, if_false]
        have hnone : ¬ ∃ q ∈ p :: t, q.1 ≤ i ∧ i < q.2 := by
          rintro ⟨q, hq, hqi⟩
          rcases List.mem_cons.mp hq with rfl | hq'
          · exact hp hqi
          · exact hex ⟨q, hq', hqi⟩
        rw [if_neg hp, if_neg hnone]

/-- The score value of `scoredSeq` at each in-range position: strand intervals
(written last) win, then helix intervals, otherwise the coil weight; each
interval covers exactly `first ≤ i < last`. -/
theorem scoredSeq_getD (seq_len : ℕ) (coil : ℚ) (helices sheets : List (ℕ × ℕ))
    (i : ℕ) (h : i < seq_len) :
    (scoredSeq seq_len coil helices sheets).getD i 0 =
      if ∃ p ∈ sheets, p.1 ≤ i ∧ i < p.2 then 1
      else if ∃ p ∈ helices, p.1 ≤ i ∧ i < p.2 then -1
      else coil := by
  unfold scoredSeq
  have hlen : i < (helices.foldl (fun a p => setRangeQ a p.1 p.2 (-1))
      (List.replicate seq_len coil)).length := by
    rw [length_foldl_setRangeQ, List.length_replicate]; exact h
  rw [getD_foldl_setRangeQ _ _ _ _ hlen,
    getD_foldl_setRangeQ _ _ _ _ (by rwa [List.length_replicate])]
  have : (List.replicate seq_len coil).getD i 0 = coil := by
    rw [List.getD_eq_getElem?_getD, List.getElem?_replicate]
    simp [h]
  rw [this]

/-- C1, as stated, is false: the source writes helix intervals with the
half-open numpy slice `scored_seq[first:last]`, so the closed interval's last
residue is NOT scored -1.  Concretely, for the single helix interval (0, 2),
no strand intervals, target length 3 and coil weight 0, residue 2 (the helix
interval's last residue, in no strand interval) has score 0, not -1. -/
theorem claim_C1_counterexample :
    (scoredSeq 3 0 [(0, 2)] []).getD 2 0 = 0 ∧ ((0 : ℚ) ≠ -1) := by
  constructor
  · rfl
  · decide

/-- C1 (corrected): the Signal Builder's score array has value +1 at every
residue `i` with `first ≤ i < last` for some strand interval (strands are
written after helices and win on overlap), value -1 at every remaining
residue with `first ≤ i < last` for some helix interval (the interval's
last residue is excluded by the half-open slice), and the coil weight at
every other residue. -/
theorem claim_C1 (seq_len : ℕ) (coil : ℚ) (helices sheets : List (ℕ × ℕ))
    (i : ℕ) (h : i < seq_len) :
    (scoredSeq seq_len coil helices sheets).getD i 0 =
      if ∃ p ∈ sheets, p.1 ≤ i ∧ i < p.2 then 1
      else if ∃ p ∈ helices, p.1 ≤ i ∧ i < p.2 then -1
      else coil :=
  scoredSeq_getD seq_len coil helices sheets i h

/-- Witness for C1: on the helix (1, 4) and strand (3, 6) over 8 residues
with coil weight 1/2, residue 3 (overlap) scores +1, residue 2 scores -1 and
residue 6 scores the coil weight. -/
theorem claim_C1_witness :
    (scoredSeq 8 (1/2) [(1, 4)] [(3, 6)]).getD 3 0 = 1 ∧
      (scoredSeq 8 (1/2) [(1, 4)] [(3, 6)]).getD 2 0 = -1 ∧
      (scoredSeq 8 (1/2) [(1, 4)] [(3, 6)]).getD 6 0 = 1/2 := by
  refine ⟨?_, ?_, ?_⟩
  · rw [claim_C1 8 (1/2) [(1, 4)] [(3, 6)] 3 (by decide)]
    rw [if_pos (by decide)]
  · rw [claim_C1 8 (1/2) [(1, 4)] [(3, 6)] 2 (by decide)]
    rw [if_neg (by decide), if_pos (by decide)]
  · rw [claim_C1 8 (1/2) [(1, 4)] [(3, 6)] 6 (by decide)]
    rw [if_neg (by decide), if_neg (by decide)]

/-- Edge scan of `count_domain_sses` (sse_func.py lines 490-494): walking the
membership array with the previous value in hand, position `pos` is recorded
as an up edge on a 0-to-1 transition and as a down edge on a 1-to-0
transition.  Returns (up edges, down edges). -/
def edgeScan : Bool → ℕ → List Bool → List ℕ × List ℕ
  | _, _, [] => ([], [])
  | false, pos, true :: rest =>
    let r := edgeScan true (pos + 1) rest
    (pos :: r.1, r.2)
  | true, pos, false :: rest =>
    let r := edgeScan false (pos + 1) rest
    (r.1, pos :: r.2)
  | false, pos, false :: rest => edgeScan false (pos + 1) rest
  | true, pos, true :: rest => edgeScan true (pos + 1) rest

/-- `up_edges` of `count_domain_sses`: indices `i+1` with `sse_bool[i] = 0`
and `sse_bool[i+1] = 1`. -/
def upEdges (b : List Bool) : List ℕ :=
  match b with
  | [] => []
  | c :: rest => (edgeScan c 1 rest).1

/-- The loop-collected part of `down_edges`: indices `i+1` with
`sse_bool[i] = 1` and `sse_bool[i+1] = 0`. -/
def downEdgesScan (b : List Bool) : List ℕ :=
  match b with
  | [] => []
  | c :: rest => (edgeScan c 1 rest).2

/-- `down_edges` of `count_domain_sses`: the scanned 1-to-0 transitions
followed by the unconditional `down_edges.append(len(sse_bool))`. -/
def downEdges (b : List Bool) : List ℕ :=
  downEdgesScan b ++ [b.length]

/-- In-place truncation `sse_bool[:domain_start] = 0` (sse_func.py line 485). -/
def truncateBool : ℕ → List Bool → List Bool
  | _, [] => []
  | 0, l => l
  | n + 1, _ :: xs => false :: truncateBool n xs

/-- The merging while-loop of `count_domain_sses` (sse_func.py lines 501-515):
while `i < n_elements - 1`, if the zero-run `up_edges[i+1] - down_edges[i]`
is at most `spacing`, delete `up_edges[i+1]` and `down_edges[i]` and retry at
the same `i`, else advance `i`.  The loop always terminates because each
iteration either shortens `up` or increases `i`; the fuel argument (chosen
large enough by the caller) only makes that termination structural. -/
def mergeLoopF (spacing : ℕ) : ℕ → ℕ → List ℕ → List ℕ → List ℕ × List ℕ
  | 0, _, up, down => (up, down)
  | fuel + 1, i, up, down =>
    if i + 1 < up.length then
      if (up.getD (i + 1) 0 : ℤ) - (down.getD i 0 : ℤ) ≤ (spacing : ℤ) then
        mergeLoopF spacing fuel i (up.eraseIdx (i + 1)) (down.eraseIdx i)
      else
        mergeLoopF spacing fuel (i + 1) up down
    else (up, down)

/-- The Element Grouper `count_domain_sses` (sse_func.py lines 459-528), for a
caller-supplied membership array `sse_bool`: truncate below `domain_start`,
collect up/down edges, merge across short zero-runs, then keep every element
of length at least `minimum_length` whose start lies before `domain_end`,
as the closed interval `[up_edges[i], down_edges[i] - 1]`. -/
def count_domain_sses (domain_start domain_end spacing minimum_length : ℕ)
    (sse_bool : List Bool) : List (ℕ × ℕ) :=
  let b := truncateBool domain_start sse_bool
  let e := mergeLoopF spacing (2 * (upEdges b).length + 2) 0 (upEdges b) (downEdges b)
  (List.range e.1.length).filterMap fun i =>
    let u := e.1.getD i 0
    let d := e.2.getD i 0
    if (d : ℤ) - (u : ℤ) < (minimum_length : ℤ) then none
    else if u < domain_end then some (u, d - 1)
    else none

/-- The caller-visible state of the `sse_bool` argument after
`count_domain_sses` returns: the in-place write `sse_bool[:domain_start] = 0`
(sse_func.py line 485) is the only mutation the function performs on it
(every later access only reads), so the final state is the truncation. -/
def count_domain_sses_post (domain_start domain_end spacing minimum_length : ℕ)
    (sse_bool : List Bool) : List Bool :=
  truncateBool domain_start sse_bool

/-- Numpy slice assignment `l[s:e+1] = 1` on a boolean array: the closed
interval `[s, e]` is set, clipped to the array. -/
def setRangeTrue (s e : ℕ) (l : List Bool) : List Bool :=
  (List.range l.length).map fun i => if s ≤ i ∧ i ≤ e then true else l.getD i false

/-- Rasterization of a list of closed intervals into a boolean membership
array of length `n` (each closed interval set to 1, as in the `tuple_list`
branch of `count_domain_sses`, sse_func.py lines 474-478). -/
def raster (n : ℕ) (ivs : List (ℕ × ℕ)) : List Bool :=
  ivs.foldl (fun acc p => setRangeTrue p.1 p.2 acc) (List.replicate n false)

theorem length_truncateBool (n : ℕ) (l : List Bool) :
    (truncateBool n l).length = l.length := by
  induction l generalizing n with
  | nil => cases n <;> rfl
  | cons x xs ih =>
    cases n with
    | zero => rfl
    | succ m => simpa [truncateBool] using ih m

theorem getD_truncateBool (n : ℕ) (l : List Bool) (i : ℕ) :
    (truncateBool n l).getD i false = if i < n then false else l.getD i false := by
  induction l generalizing n i with
  | nil => cases n <;> simp [truncateBool]
  | cons x xs ih =>
    cases n with
    | zero => simp [truncateBool]
    | succ m =>
      cases i with
      | zero => simp [truncateBool]
      | succ j => simpa [truncateBool] using ih m j

theorem truncateBool_zero (l : List Bool) : truncateBool 0 l = l := by
  cases l <;> rfl

/-- C9, as stated, is false: `count_domain_sses` mutates the caller-supplied
`sse_bool` in place via `sse_bool[:domain_start] = 0` (sse_func.py line 485).
With `sse_bool = [1,1,1,1]` and `domain_start = 1` the caller's array reads
`[0,1,1,1]` after the call. -/
theorem claim_C9_counterexample :
    count_domain_sses_post 1 4 1 3 [true, true, true, true] ≠
      [true, true, true, true] := by
  decide

/-- C9 (corrected): `count_domain_sses` does mutate the caller-supplied
membership array: after the call every entry at an index below `domain_start`
is 0 and every entry at an index at or above `domain_start` is unchanged
(so the array is unchanged only when it has no set entry below
`domain_start`). -/
theorem claim_C9 (ds de sp ml : ℕ) (b : List Bool) :
    (count_domain_sses_post ds de sp ml b).length = b.length ∧
      ∀ i : ℕ, (count_domain_sses_post ds de sp ml b).getD i false =
        if i < ds then false else b.getD i false :=
  ⟨length_truncateBool ds b, fun i => getD_truncateBool ds b i⟩

theorem edgeScan_true_replicate (k : ℕ) (p : ℕ) (rest : List Bool) :
    edgeScan true p (List.replicate k true ++ rest) = edgeScan true (p + k) rest := by
  induction k generalizing p with
  | zero => simp
  | succ m ih =>
    rw [List.replicate_succ, List.cons_append]
    show edgeScan true (p + 1) (List.replicate m true ++ rest) = _
    rw [ih (p + 1)]
    congr 1
    omega

theorem edgeScan_false_replicate (k : ℕ) (p : ℕ) (rest : List Bool) :
    edgeScan false p (List.replicate k false ++ rest) = edgeScan false (p + k) rest := by
  induction k generalizing p with
  | zero => simp
  | succ m ih =>
    rw [List.replicate_succ, List.cons_append]
    show edgeScan false (p + 1) (List.replicate m false ++ rest) = _
    rw [ih (p + 1)]
    congr 1
    omega

/-- A membership array holding exactly two candidate runs: a leading 0, a run
of `h1` ones, a zero-run of length `g`, a run of `h2` ones and a trailing 0. -/
def twoRuns (h1 g h2 : ℕ) : List Bool :=
  false :: (List.replicate h1 true ++
    (List.replicate g false ++ (List.replicate h2 true ++ [false])))

theorem upEdges_twoRuns (a b c : ℕ) :
    upEdges (twoRuns (a + 1) (b + 1) (c + 1)) = [1, 3 + a + b] := by
  unfold twoRuns upEdges
  rw [List.replicate_succ, List.cons_append]
  show (let r := edgeScan true 2 (List.replicate a true ++ _); (1 :: r.1, r.2)).1 = _
  rw [edgeScan_true_replicate]
  rw [List.replicate_succ, List.cons_append]
  show (1 :: (edgeScan false (2 + a + 1) (List.replicate b false ++ _)).1) = _
  rw [edgeScan_false_replicate]
  rw [List.replicate_succ, List.cons_append]
  show (1 :: ((2 + a + 1 + b) :: (edgeScan true (2 + a + 1 + b + 1)
    (List.replicate c true ++ [false])).1)) = _
  rw [edgeScan_true_replicate]
  show (1 :: ((2 + a + 1 + b) :: [])) = _
  simp only [List.cons.injEq, and_true, true_and]
  omega

theorem downEdgesScan_twoRuns (a b c : ℕ) :
    downEdgesScan (twoRuns (a + 1) (b + 1) (c + 1)) = [2 + a, 4 + a + b + c] := by
  unfold twoRuns downEdgesScan
  rw [List.replicate_succ, List.cons_append]
  show (let r := edgeScan true 2 (List.replicate a true ++ _); (1 :: r.1, r.2)).2 = _
  rw [edgeScan_true_replicate]
  rw [List.replicate_succ, List.cons_append]
  show ((2 + a) :: (edgeScan false (2 + a + 1) (List.replicate b false ++ _)).2) = _
  rw [edgeScan_false_replicate]
  rw [List.replicate_succ, List.cons_append]
  show ((2 + a) :: (edgeScan true (2 + a + 1 + b + 1)
    (List.replicate c true ++ [false])).2) = _
  rw [edgeScan_true_replicate]
  show ((2 + a) :: ((2 + a + 1 + b + 1 + c) :: [])) = _
  simp only [List.cons.injEq, and_true, true_and]
  omega

theorem length_twoRuns (h1 g h2 : ℕ) :
    (twoRuns h1 g h2).length = 2 + h1 + g + h2 := by
  simp [twoRuns]
  omega

theorem mergeLoopF_two_merge (sp u1 u2 d1 d2 d3 f : ℕ)
    (h : (u2 : ℤ) - (d1 : ℤ) ≤ (sp : ℤ)) :
    mergeLoopF sp (f + 2) 0 [u1, u2] [d1, d2, d3] = ([u1], [d2, d3]) := by
  simp only [mergeLoopF, List.length_cons, List.length_nil, List.getD_cons_succ,
    List.getD_cons_zero, List.eraseIdx]
  rw [if_pos (by omega), if_pos h]
  simp [mergeLoopF]

theorem mergeLoopF_two_keep (sp u1 u2 d1 d2 d3 f : ℕ)
    (h : ¬ ((u2 : ℤ) - (d1 : ℤ) ≤ (sp : ℤ))) :
    mergeLoopF sp (f + 2) 0 [u1, u2] [d1, d2, d3] = ([u1, u2], [d1, d2, d3]) := by
  simp only [mergeLoopF, List.length_cons, List.length_nil, List.getD_cons_succ,
    List.getD_cons_zero, List.eraseIdx]
  rw [if_pos (by omega), if_neg h]
  simp [mergeLoopF]

/-- C3 (confirmed): on a membership array holding two candidate runs (of any
lengths at least `minimum_length`) separated by a zero-run of length `g`, the
Element Grouper merges them into one element exactly when `g ≤ spacing`;
in particular the spec's scenario `[0,1,1,1,0,1,1,1,0]` with `spacing = 1`
and `minimum_length = 3` yields the single element `(1, 7)`. -/
theorem claim_C3 :
    (∀ ml h1 g h2 s : ℕ, 1 ≤ h1 → 1 ≤ h2 → 1 ≤ g → ml ≤ h1 → ml ≤ h2 →
      count_domain_sses 0 (2 + h1 + g + h2) s ml (twoRuns h1 g h2) =
        if g ≤ s then [(1, h1 + g + h2)]
        else [(1, h1), (1 + h1 + g, h1 + g + h2)]) ∧
    count_domain_sses 0 9 1 3
      [false, true, true, true, false, true, true, true, false] = [(1, 7)] := by
  constructor
  · intro ml h1 g h2 s hh1 hh2 hg hml1 hml2
    obtain ⟨a, rfl⟩ : ∃ a, h1 = a + 1 := ⟨h1 - 1, by omega⟩
    obtain ⟨b, rfl⟩ : ∃ b, g = b + 1 := ⟨g - 1, by omega⟩
    obtain ⟨c, rfl⟩ : ∃ c, h2 = c + 1 := ⟨h2 - 1, by omega⟩
    simp only [count_domain_sses, truncateBool_zero, downEdges]
    rw [upEdges_twoRuns, downEdgesScan_twoRuns, length_twoRuns]
    have hfuel : 2 * ([1, 3 + a + b] : List ℕ).length + 2 = 4 + 2 := by simp
    rw [hfuel]
    have happ : ([2 + a, 4 + a + b + c] : List ℕ) ++ [2 + (a + 1) + (b + 1) + (c + 1)] =
        [2 + a, 4 + a + b + c, 5 + a + b + c] := by
      simp only [List.cons_append, List.nil_append, List.cons.injEq, and_true, true_and]
      omega
    rw [happ]
    by_cases hbs : b + 1 ≤ s
    · rw [mergeLoopF_two_merge 
        (h := by push_cast; omega)]
      rw [if_pos hbs]
      have hr : List.range ([1] : List ℕ).length = [0] := rfl
      rw [hr]
      simp only [List.filterMap_cons, List.filterMap_nil, List.getD_cons_zero]
      rw [if_neg (by push_cast; omega), if_pos (by omega)]
      simp only [List.cons.injEq, Prod.mk.injEq, and_true, true_and]
      omega
    · rw [mergeLoopF_two_keep
        (h := by push_cast; omega)]
      rw [if_neg hbs]
      have hr : List.range ([1, 3 + a + b] : List ℕ).length = [0, 1] := rfl
      rw [hr]
      simp only [List.filterMap_cons, List.filterMap_nil, List.getD_cons_zero,
        List.getD_cons_succ]
      rw [if_neg (by push_cast; omega), if_pos (by omega),
        if_neg (by push_cast; omega), if_pos (by omega)]
      simp only [List.cons.injEq, Prod.mk.injEq, and_true, true_and]
      omega
  · decide

/-- Witness for C3: the general part applied at `minimum_length = 3`, two runs
of length 3 and gap 1 with `spacing = 1` (merged) and `spacing = 0` (kept
apart). -/
theorem claim_C3_witness :
    count_domain_sses 0 9 1 3 (twoRuns 3 1 3) = [(1, 7)] ∧
      count_domain_sses 0 9 0 3 (twoRuns 3 1 3) = [(1, 3), (5, 7)] := by
  constructor
  · have h := (claim_C3.1) 3 3 1 3 1 (by decide) (by decide) (by decide) (by decide)
      (by decide)
    simpa using h
  · have h := (claim_C3.1) 3 3 1 3 0 (by decide) (by decide) (by decide) (by decide)
      (by decide)
    simpa using h

theorem getD_mem {l : List ℕ} {i : ℕ} (h : i < l.length) (d : ℕ) : l.getD i d ∈ l := by
  rw [List.getD_eq_getElem?_getD, List.getElem?_eq_getElem h]
  simp

theorem getD_eq_get {l : List ℕ} {i : ℕ} (h : i < l.length) (d : ℕ) :
    l.getD i d = l.get ⟨i, h⟩ := by
  rw [List.getD_eq_getElem?_getD, List.getElem?_eq_getElem h]
  simp

theorem sorted_getD_lt {l : List ℕ} (h : l.Pairwise (· < ·)) {i j : ℕ} (hij : i < j)
    (hj : j < l.length) : l.getD i 0 < l.getD j 0 := by
  rw [getD_eq_get (by omega) 0, getD_eq_get hj 0]
  exact List.pairwise_iff_get.mp h ⟨i, by omega⟩ ⟨j, hj⟩ hij

theorem getD_eraseIdx_lt {l : List ℕ} {k j : ℕ} (h : j < k) :
    (l.eraseIdx k).getD j 0 = l.getD j 0 := by
  induction l generalizing k j with
  | nil => simp [List.eraseIdx]
  | cons x xs ih =>
    cases k with
    | zero => omega
    | succ m =>
      cases j with
      | zero => simp [List.eraseIdx]
      | succ j' => simpa [List.eraseIdx] using ih (by omega)

theorem getD_eraseIdx_ge {l : List ℕ} {k j : ℕ} (hk : k < l.length) (h : k ≤ j) :
    (l.eraseIdx k).getD j 0 = l.getD (j + 1) 0 := by
  induction l generalizing k j with
  | nil => simp at hk
  | cons x xs ih =>
    cases k with
    | zero => simp [List.eraseIdx]
    | succ m =>
      cases j with
      | zero => omega
      | succ j' => simpa [List.eraseIdx] using ih (by simpa using hk) (by omega)

/-- Interleaving shape of two edge lists where the next expected edge belongs
to `X`: `X` and `Y` alternate in position starting with `X`, so `Y` is at most
as long as `X`, `X` at most one longer, the `i`-th `X` edge precedes the
`i`-th `Y` edge and the `i`-th `Y` edge precedes the `(i+1)`-st `X` edge. -/
def AltShape (X Y : List ℕ) : Prop :=
  Y.length ≤ X.length ∧ X.length ≤ Y.length + 1 ∧
    (∀ i, i < Y.length → X.getD i 0 < Y.getD i 0) ∧
    (∀ i, i + 1 < X.length → Y.getD i 0 < X.getD (i + 1) 0)

theorem AltShape.nil : AltShape [] [] := by
  refine ⟨le_refl _, by simp, ?_, ?_⟩ <;> intro i h <;> simp at h

theorem AltShape.step {pos : ℕ} {X Y : List ℕ} (hy : ∀ x ∈ Y, pos + 1 ≤ x)
    (h : AltShape Y X) : AltShape (pos :: X) Y := by
  obtain ⟨h1, h2, h3, h4⟩ := h
  refine ⟨by simp; omega, by simp; omega, ?_, ?_⟩
  · intro i hi
    cases i with
    | zero =>
      have : Y.getD 0 0 ∈ Y := getD_mem hi 0
      simpa using hy _ this
    | succ j =>
      have := h4 j (by omega)
      simpa using this
  · intro i hi
    have := h3 i (by simpa using hi)
    simpa using this

/-- Invariant of the raw edge scan: both lists are strictly sorted, all
entries lie in `[pos, pos + m)` where `m` is the remaining length, and the
two lists alternate, starting with a down edge if the previous value was 1
and with an up edge otherwise. -/
def ScanInv (prev : Bool) (pos m : ℕ) (U D : List ℕ) : Prop :=
  U.Pairwise (· < ·) ∧ D.Pairwise (· < ·) ∧
    (∀ x ∈ U, pos ≤ x ∧ x < pos + m) ∧ (∀ x ∈ D, pos ≤ x ∧ x < pos + m) ∧
    (if prev then AltShape D U else AltShape U D)

theorem edgeScan_scanInv (rest : List Bool) : ∀ (prev : Bool) (pos : ℕ),
    ScanInv prev pos rest.length (edgeScan prev pos rest).1 (edgeScan prev pos rest).2 := by
  induction rest with
  | nil =>
    intro prev pos
    refine ⟨by simp [edgeScan], by simp [edgeScan], by simp [edgeScan], by simp [edgeScan], ?_⟩
    cases prev <;> simp [edgeScan] <;> exact AltShape.nil
  | cons c rest ih =>
    intro prev pos
    have hrec := ih c (pos + 1)
    obtain ⟨hu, hd, hub, hdb, hi⟩ := hrec
    cases prev <;> cases c
    · -- prev = false, c = false : no edge
      show ScanInv false pos _ (edgeScan false (pos + 1) rest).1 (edgeScan false (pos + 1) rest).2
      refine ⟨hu, hd, ?_, ?_, ?_⟩
      · intro x hx
        have := hub x hx
        constructor <;> [omega; (simp only [List.length_cons]; omega)]
      · intro x hx
        have := hdb x hx
        constructor <;> [omega; (simp only [List.length_cons]; omega)]
      · simpa using hi
    · -- prev = false, c = true : up edge at pos
      show ScanInv false pos _
        (pos :: (edgeScan true (pos + 1) rest).1) (edgeScan true (pos + 1) rest).2
      refine ⟨?_, hd, ?_, ?_, ?_⟩
      · exact List.pairwise_cons.mpr ⟨fun x hx => by have := hub x hx; omega, hu⟩
      · intro x hx
        rcases List.mem_cons.mp hx with rfl | hx'
        · constructor <;> [omega; (simp only [List.length_cons]; omega)]
        · have := hub x hx'
          constructor <;> [omega; (simp only [List.length_cons]; omega)]
      · intro x hx
        have := hdb x hx
        constructor <;> [omega; (simp only [List.length_cons]; omega)]
      · simp only [if_false, Bool.false_eq_true]
        simp only [if_true] at hi
        exact AltShape.step (fun x hx => (hdb x hx).1) hi
    · -- prev = true, c = false : down edge at pos
      show ScanInv true pos _
        (edgeScan false (pos + 1) rest).1 (pos :: (edgeScan false (pos + 1) rest).2)
      refine ⟨hu, ?_, ?_, ?_, ?_⟩
      · exact List.pairwise_cons.mpr ⟨fun x hx => by have := hdb x hx; omega, hd⟩
      · intro x hx
        have := hub x hx
        constructor <;> [omega; (simp only [List.length_cons]; omega)]
      · intro x hx
        rcases List.mem_cons.mp hx with rfl | hx'
        · constructor <;> [omega; (simp only [List.length_cons]; omega)]
        · have := hdb x hx'
          constructor <;> [omega; (simp only [List.length_cons]; omega)]
      · simp only [if_true]
        simp only [if_false, Bool.false_eq_true] at hi
        exact AltShape.step (fun x hx => (hub x hx).1) hi
    · -- prev = true, c = true : no edge
      show ScanInv true pos _ (edgeScan true (pos + 1) rest).1 (edgeScan true (pos + 1) rest).2
      refine ⟨hu, hd, ?_, ?_, ?_⟩
      · intro x hx
        have := hub x hx
        constructor <;> [omega; (simp only [List.length_cons]; omega)]
      · intro x hx
        have := hdb x hx
        constructor <;> [omega; (simp only [List.length_cons]; omega)]
      · simpa using hi

theorem edgeScan_up_val (rest : List Bool) : ∀ (prev : Bool) (pos q : ℕ),
    q ∈ (edgeScan prev pos rest).1 → pos ≤ q ∧ rest.getD (q - pos) false = true := by
  induction rest with
  | nil => intro prev pos q hq; simp [edgeScan] at hq
  | cons c rest ih =>
    intro prev pos q hq
    cases prev <;> cases c
    · obtain ⟨h1, h2⟩ := ih false (pos + 1) q (by simpa [edgeScan] using hq)
      refine ⟨by omega, ?_⟩
      have : q - pos = (q - (pos + 1)) + 1 := by omega
      rw [this, List.getD_cons_succ]
      exact h2
    · simp only [edgeScan] at hq
      rcases List.mem_cons.mp hq with rfl | hq'
      · simp
      · obtain ⟨h1, h2⟩ := ih true (pos + 1) q hq'
        refine ⟨by omega, ?_⟩
        have : q - pos = (q - (pos + 1)) + 1 := by omega
        rw [this, List.getD_cons_succ]
        exact h2
    · simp only [edgeScan] at hq
      obtain ⟨h1, h2⟩ := ih false (pos + 1) q hq
      refine ⟨by omega, ?_⟩
      have : q - pos = (q - (pos + 1)) + 1 := by omega
      rw [this, List.getD_cons_succ]
      exact h2
    · obtain ⟨h1, h2⟩ := ih true (pos + 1) q (by simpa [edgeScan] using hq)
      refine ⟨by omega, ?_⟩
      have : q - pos = (q - (pos + 1)) + 1 := by omega
      rw [this, List.getD_cons_succ]
      exact h2

theorem edgeScan_down_val (rest : List Bool) : ∀ (prev : Bool) (pos q : ℕ),
    q ∈ (edgeScan prev pos rest).2 → pos ≤ q ∧ rest.getD (q - pos) false = false := by
  induction rest with
  | nil => intro prev pos q hq; simp [edgeScan] at hq
  | cons c rest ih =>
    intro prev pos q hq
    cases prev <;> cases c
    · obtain ⟨h1, h2⟩ := ih false (pos + 1) q (by simpa [edgeScan] using hq)
      refine ⟨by omega, ?_⟩
      have : q - pos = (q - (pos + 1)) + 1 := by omega
      rw [this, List.getD_cons_succ]
      exact h2
    · obtain ⟨h1, h2⟩ := ih true (pos + 1) q (by simpa [edgeScan] using hq)
      refine ⟨by omega, ?_⟩
      have : q - pos = (q - (pos + 1)) + 1 := by omega
      rw [this, List.getD_cons_succ]
      exact h2
    · simp only [edgeScan] at hq
      rcases List.mem_cons.mp hq with rfl | hq'
      · simp
      · obtain ⟨h1, h2⟩ := ih false (pos + 1) q hq'
        refine ⟨by omega, ?_⟩
        have : q - pos = (q - (pos + 1)) + 1 := by omega
        rw [this, List.getD_cons_succ]
        exact h2
    · obtain ⟨h1, h2⟩ := ih true (pos + 1) q (by simpa [edgeScan] using hq)
      refine ⟨by omega, ?_⟩
      have : q - pos = (q - (pos + 1)) + 1 := by omega
      rw [this, List.getD_cons_succ]
      exact h2

/-- The invariant carried by the edge lists through the merging loop of
`count_domain_sses` over a (truncated) membership array `b`. -/
structure EdgeInv (b : List Bool) (up down : List ℕ) : Prop where
  u_sorted : up.Pairwise (· < ·)
  d_sorted : down.Pairwise (· < ·)
  len_le : up.length ≤ down.length
  cross : ∀ i, i + 1 < up.length → down.getD i 0 < up.getD (i + 1) 0
  u_mem : ∀ x ∈ up, 1 ≤ x ∧ x < b.length ∧ b.getD x false = true
  d_mem : ∀ x ∈ down, x ≤ b.length
  disj : ∀ x ∈ up, x ∉ down

theorem edgeInv_init (b : List Bool) : EdgeInv b (upEdges b) (downEdges b) := by
  cases b with
  | nil =>
    refine ⟨?_, ?_, ?_, ?_, ?_, ?_, ?_⟩ <;>
      simp [upEdges, downEdges, downEdgesScan]
  | cons c rest =>
    obtain ⟨hu, hd, hub, hdb, hi⟩ := edgeScan_scanInv rest c 1
    have hup : upEdges (c :: rest) = (edgeScan c 1 rest).1 := rfl
    have hdn : downEdges (c :: rest) = (edgeScan c 1 rest).2 ++ [rest.length + 1] := by
      simp [downEdges, downEdgesScan]
    have hdlt : ∀ x ∈ (edgeScan c 1 rest).2, x < rest.length + 1 := by
      intro x hx; have := hdb x hx; omega
    have hult : ∀ x ∈ (edgeScan c 1 rest).1, x < rest.length + 1 := by
      intro x hx; have := hub x hx; omega
    have hlen2 : (edgeScan c 1 rest).1.length ≤ (edgeScan c 1 rest).2.length + 1 := by
      cases c <;> simp only [if_true, if_false, Bool.false_eq_true] at hi <;>
        obtain ⟨h1, h2, _, _⟩ := hi
      · omega
      · omega
    have hcross0 : ∀ i, i + 1 < (edgeScan c 1 rest).1.length →
        (edgeScan c 1 rest).2.getD i 0 < (edgeScan c 1 rest).1.getD (i + 1) 0 := by
      intro i hi1
      cases c <;> simp only [if_true, if_false, Bool.false_eq_true] at hi
      · exact hi.2.2.2 i hi1
      · obtain ⟨h1, h2, h3, h4⟩ := hi
        have hiu : i < (edgeScan true 1 rest).1.length := by omega
        calc (edgeScan true 1 rest).2.getD i 0
            < (edgeScan true 1 rest).1.getD i 0 := h3 i hiu
          _ < (edgeScan true 1 rest).1.getD (i + 1) 0 := sorted_getD_lt hu (by omega) hi1
    rw [hup, hdn]
    refine ⟨hu, ?_, ?_, ?_, ?_, ?_, ?_⟩
    · rw [List.pairwise_append]
      exact ⟨hd, by simp, fun a ha b hb => by
        rcases List.mem_singleton.mp hb with rfl; exact hdlt a ha⟩
    · simp only [List.length_append, List.length_singleton]
      omega
    · intro i hi1
      have hiD : i < (edgeScan c 1 rest).2.length := by omega
      rw [List.getD_append _ _ _ _ hiD]
      exact hcross0 i hi1
    · intro x hx
      obtain ⟨h1, h2⟩ := edgeScan_up_val rest c 1 x hx
      refine ⟨h1, by simpa using hult x hx, ?_⟩
      have : (c :: rest).getD x false = rest.getD (x - 1) false := by
        cases x with
        | zero => omega
        | succ k => simp
      rw [this]
      exact h2
    · intro x hx
      rcases List.mem_append.mp hx with hx' | hx'
      · have := hdlt x hx'; simp only [List.length_cons]; omega
      · rcases List.mem_singleton.mp hx' with rfl; simp
    · intro x hx hmem
      obtain ⟨_, h2⟩ := edgeScan_up_val rest c 1 x hx
      rcases List.mem_append.mp hmem with hx' | hx'
      · obtain ⟨_, h4⟩ := edgeScan_down_val rest c 1 x hx'
        rw [h2] at h4
        exact Bool.noConfusion h4
      · have hxx := List.mem_singleton.mp hx'
        have := hult x hx
        omega

theorem EdgeInv.erase {b : List Bool} {up down : List ℕ} (h : EdgeInv b up down)
    {i : ℕ} (hi : i + 1 < up.length) :
    EdgeInv b (up.eraseIdx (i + 1)) (down.eraseIdx i) := by
  have hiD : i < down.length := by have := h.len_le; omega
  have hul : (up.eraseIdx (i + 1)).length = up.length - 1 :=
    List.length_eraseIdx_of_lt hi
  have hdl : (down.eraseIdx i).length = down.length - 1 :=
    List.length_eraseIdx_of_lt hiD
  refine ⟨h.u_sorted.sublist (List.eraseIdx_sublist up (i + 1)),
    h.d_sorted.sublist (List.eraseIdx_sublist down i), ?_, ?_, ?_, ?_, ?_⟩
  · rw [hul, hdl]; have := h.len_le; omega
  · intro j hj
    rw [hul] at hj
    rcases Nat.lt_trichotomy j i with hlt | heq | hgt
    · rw [getD_eraseIdx_lt hlt, getD_eraseIdx_lt (by omega)]
      exact h.cross j (by omega)
    · subst heq
      rw [getD_eraseIdx_ge hiD (le_refl j), getD_eraseIdx_ge hi (by omega)]
      exact h.cross (j + 1) (by omega)
    · rw [getD_eraseIdx_ge hiD (by omega), getD_eraseIdx_ge hi (by omega)]
      exact h.cross (j + 1) (by omega)
  · intro x hx
    exact h.u_mem x ((List.eraseIdx_sublist up (i + 1)).mem hx)
  · intro x hx
    exact h.d_mem x ((List.eraseIdx_sublist down i).mem hx)
  · intro x hx hmem
    exact h.disj x ((List.eraseIdx_sublist up (i + 1)).mem hx)
      ((List.eraseIdx_sublist down i).mem hmem)

theorem mergeLoopF_inv {b : List Bool} (sp : ℕ) : ∀ (fuel i : ℕ) (up down : List ℕ),
    EdgeInv b up down →
      EdgeInv b (mergeLoopF sp fuel i up down).1 (mergeLoopF sp fuel i up down).2 := by
  intro fuel
  induction fuel with
  | zero => intro i up down h; exact h
  | succ f ih =>
    intro i up down h
    show EdgeInv b (mergeLoopF sp (f + 1) i up down).1 (mergeLoopF sp (f + 1) i up down).2
    rw [mergeLoopF]
    by_cases h1 : i + 1 < up.length
    · rw [if_pos h1]
      by_cases h2 : (up.getD (i + 1) 0 : ℤ) - (down.getD i 0 : ℤ) ≤ (sp : ℤ)
      · rw [if_pos h2]
        exact ih i _ _ (h.erase h1)
      · rw [if_neg h2]
        exact ih (i + 1) up down h
    · rw [if_neg h1]
      exact h

theorem pairwise_filterMap_range {α : Type _} (R : α → α → Prop) (f : ℕ → Option α) :
    ∀ n : ℕ, (∀ i j a c, i < j → j < n → f i = some a → f j = some c → R a c) →
      ((List.range n).filterMap f).Pairwise R := by
  intro n
  induction n with
  | zero => intro _; simp
  | succ m ih =>
    intro h
    rw [List.range_succ, List.filterMap_append]
    rw [List.pairwise_append]
    refine ⟨ih (fun i j a c hij hj => h i j a c hij (by omega)), ?_, ?_⟩
    · cases hfm : f m <;> simp [List.filterMap_cons, hfm]
    · intro a ha c hc
      obtain ⟨i, hi, hfi⟩ := List.mem_filterMap.mp ha
      have him : i < m := List.mem_range.mp hi
      have hfc : f m = some c := by
        rcases List.mem_filterMap.mp hc with ⟨j, hj, hfj⟩
        rcases List.mem_singleton.mp hj with rfl
        exact hfj
      exact h i m a c him (by omega) hfi hfc

theorem count_elem_facts (ds de sp ml : ℕ) (b : List Bool) (p : ℕ × ℕ)
    (hp : p ∈ count_domain_sses ds de sp ml b) :
    1 ≤ p.1 ∧ ds ≤ p.1 ∧ p.1 < de ∧ p.1 ≤ p.2 ∧ p.2 + 1 ≤ b.length ∧
      ml ≤ p.2 + 1 - p.1 := by
  have hinv := mergeLoopF_inv sp (2 * (upEdges (truncateBool ds b)).length + 2) 0
    (upEdges (truncateBool ds b)) (downEdges (truncateBool ds b))
    (edgeInv_init (truncateBool ds b))
  simp only [count_domain_sses] at hp
  obtain ⟨i, hi, hfi⟩ := List.mem_filterMap.mp hp
  have hilen : i < (mergeLoopF sp (2 * (upEdges (truncateBool ds b)).length + 2) 0
      (upEdges (truncateBool ds b)) (downEdges (truncateBool ds b))).1.length :=
    List.mem_range.mp hi
  set E := mergeLoopF sp (2 * (upEdges (truncateBool ds b)).length + 2) 0
    (upEdges (truncateBool ds b)) (downEdges (truncateBool ds b)) with hE
  set u := E.1.getD i 0 with hu
  set d := E.2.getD i 0 with hd
  by_cases hc1 : (d : ℤ) - (u : ℤ) < (ml : ℤ)
  · rw [if_pos hc1] at hfi
    exact absurd hfi (by simp)
  rw [if_neg hc1] at hfi
  by_cases hc2 : u < de
  swap
  · rw [if_neg hc2] at hfi
    exact absurd hfi (by simp)
  rw [if_pos hc2] at hfi
  injection hfi with hps
  have hdlen : i < E.2.length := lt_of_lt_of_le hilen hinv.len_le
  have humem := hinv.u_mem u (getD_mem hilen 0)
  have hdmem := hinv.d_mem d (getD_mem hdlen 0)
  have hne : u ≠ d := by
    intro hud
    exact hinv.disj u (getD_mem hilen 0) (hud ▸ getD_mem hdlen 0)
  have hud : u < d := by
    omega
  have hds : ds ≤ u := by
    by_contra hlt
    have := humem.2.2
    rw [getD_truncateBool] at this
    rw [if_pos (by omega)] at this
    exact Bool.noConfusion this
  have hblen : (truncateBool ds b).length = b.length := length_truncateBool ds b
  subst hps
  refine ⟨humem.1, hds, hc2, by omega, by rw [hblen] at hdmem; omega, by omega⟩

theorem count_pairwise (ds de sp ml : ℕ) (b : List Bool) :
    (count_domain_sses ds de sp ml b).Pairwise
      (fun p q => p.2 + 1 < q.1) := by
  have hinv := mergeLoopF_inv sp (2 * (upEdges (truncateBool ds b)).length + 2) 0
    (upEdges (truncateBool ds b)) (downEdges (truncateBool ds b))
    (edgeInv_init (truncateBool ds b))
  show List.Pairwise _ (count_domain_sses ds de sp ml b)
  simp only [count_domain_sses]
  set E := mergeLoopF sp (2 * (upEdges (truncateBool ds b)).length + 2) 0
    (upEdges (truncateBool ds b)) (downEdges (truncateBool ds b)) with hE
  apply pairwise_filterMap_range
  intro i j a c hij hj hfi hfj
  have hjlen : j < E.1.length := hj
  have hilen : i < E.1.length := by omega
  have hidlen : i < E.2.length := lt_of_lt_of_le hilen hinv.len_le
  -- invert the two option values
  have hinv_i : a = (E.1.getD i 0, E.2.getD i 0 - 1) ∧
      E.1.getD i 0 < E.2.getD i 0 := by
    by_cases hc1 : (E.2.getD i 0 : ℤ) - (E.1.getD i 0 : ℤ) < (ml : ℤ)
    · rw [if_pos hc1] at hfi; exact absurd hfi (by simp)
    rw [if_neg hc1] at hfi
    by_cases hc2 : E.1.getD i 0 < de
    swap
    · rw [if_neg hc2] at hfi; exact absurd hfi (by simp)
    rw [if_pos hc2] at hfi
    injection hfi with hps
    have hne : E.1.getD i 0 ≠ E.2.getD i 0 := by
      intro hud
      exact hinv.disj _ (getD_mem hilen 0) (hud ▸ getD_mem hidlen 0)
    exact ⟨hps.symm, by omega⟩
  have hinv_j : c = (E.1.getD j 0, E.2.getD j 0 - 1) := by
    by_cases hc1 : (E.2.getD j 0 : ℤ) - (E.1.getD j 0 : ℤ) < (ml : ℤ)
    · rw [if_pos hc1] at hfj; exact absurd hfj (by simp)
    rw [if_neg hc1] at hfj
    by_cases hc2 : E.1.getD j 0 < de
    swap
    · rw [if_neg hc2] at hfj; exact absurd hfj (by simp)
    rw [if_pos hc2] at hfj
    injection hfj with hps
    exact hps.symm
  have hcross : E.2.getD i 0 < E.1.getD j 0 := by
    have h1 : E.2.getD i 0 < E.1.getD (i + 1) 0 := hinv.cross i (by omega)
    rcases Nat.lt_or_ge (i + 1) j with hlt | hge
    · exact lt_trans h1 (sorted_getD_lt hinv.u_sorted hlt hjlen)
    · have : i + 1 = j := by omega
      rw [this] at h1
      exact h1
  rw [hinv_i.1, hinv_j]
  have := hinv_i.2
  simp only
  omega

/-- C2 (confirmed): for every domain window, spacing, minimum length and
membership array, every element returned by the Element Grouper satisfies
`start ≤ end` and covers at least `minimum_length` residues, and the returned
elements are pairwise non-overlapping and in strictly ascending order of
start index (consecutive elements are even separated by at least one
residue). -/
theorem claim_C2 (ds de sp ml : ℕ) (b : List Bool) :
    (∀ p ∈ count_domain_sses ds de sp ml b,
        p.1 ≤ p.2 ∧ ml ≤ p.2 + 1 - p.1) ∧
      (count_domain_sses ds de sp ml b).Pairwise
        (fun p q => p.1 < q.1 ∧ p.2 < q.1) := by
  constructor
  · intro p hp
    have h := count_elem_facts ds de sp ml b p hp
    exact ⟨h.2.2.2.1, h.2.2.2.2.2⟩
  · have hpw := count_pairwise ds de sp ml b
    have hmem := fun p hp => count_elem_facts ds de sp ml b p hp
    refine List.Pairwise.imp_of_mem ?_ hpw
    intro p q hp hq hrel
    have h1 := hmem p hp
    constructor <;> omega

/-- Witness for C2: the grouped output of the spec scenario membership array
contains (1, 7), whose bounds and length satisfy the invariants. -/
theorem claim_C2_witness :
    (1 : ℕ) ≤ 7 ∧ (3 : ℕ) ≤ 7 + 1 - 1 :=
  (claim_C2 0 9 1 3 [false, true, true, true, false, true, true, true, false]).1
    (1, 7) (by decide)

theorem getD_replicate_self {α : Type _} (d : α) (k j : ℕ) :
    (List.replicate k d).getD j d = d := by
  rw [List.getD_eq_getElem?_getD, List.getElem?_replicate]
  split <;> rfl

theorem getD_replicate_gen {α : Type _} (v d : α) (k j : ℕ) :
    (List.replicate k v).getD j d = if j < k then v else d := by
  rw [List.getD_eq_getElem?_getD, List.getElem?_replicate]
  split <;> rfl

theorem getD_eq_get_gen {α : Type _} {l : List α} {i : ℕ} (h : i < l.length) (d : α) :
    l.getD i d = l.get ⟨i, h⟩ := by
  rw [List.getD_eq_getElem?_getD, List.getElem?_eq_getElem h]
  rfl

theorem ext_getD {α : Type _} (d : α) {l₁ l₂ : List α} (hl : l₁.length = l₂.length)
    (h : ∀ i, i < l₁.length → l₁.getD i d = l₂.getD i d) : l₁ = l₂ := by
  apply List.ext_get hl
  intro i h1 h2
  rw [← getD_eq_get_gen h1 d, ← getD_eq_get_gen h2 d]
  exact h i h1

theorem bool_eq_of_iff {x y : Bool} (h : x = true ↔ y = true) : x = y := by
  cases x <;> cases y <;> simp_all

/-- Canonical interval-list shape relative to a scan position `p` and array
length `n`: starts at or after `p`, each interval is ordered and ends before
`n`, and consecutive intervals are separated by at least one zero residue. -/
def Canon : ℕ → ℕ → List (ℕ × ℕ) → Prop
  | _, _, [] => True
  | p, n, (s, e) :: t => p ≤ s ∧ s ≤ e ∧ e < n ∧ Canon (e + 2) n t

theorem Canon_mono : ∀ (ivs : List (ℕ × ℕ)) {p q n : ℕ}, q ≤ p →
    Canon p n ivs → Canon q n ivs := by
  intro ivs
  cases ivs with
  | nil => intro p q n _ _; trivial
  | cons iv t =>
    intro p q n hqp h
    obtain ⟨h1, h2, h3, h4⟩ := h
    exact ⟨by omega, h2, h3, h4⟩

theorem Canon_mem : ∀ (ivs : List (ℕ × ℕ)) {p n : ℕ}, Canon p n ivs →
    ∀ iv ∈ ivs, p ≤ iv.1 ∧ iv.1 ≤ iv.2 ∧ iv.2 < n := by
  intro ivs
  induction ivs with
  | nil => intro p n _ iv hiv; simp at hiv
  | cons hd t ih =>
    intro p n h iv hiv
    obtain ⟨s, e⟩ := hd
    obtain ⟨h1, h2, h3, h4⟩ := h
    rcases List.mem_cons.mp hiv with rfl | hiv'
    · exact ⟨h1, h2, h3⟩
    · have := ih h4 iv hiv'
      exact ⟨by omega, this.2.1, this.2.2⟩

theorem canon_of_facts : ∀ (r : List (ℕ × ℕ)) (p0 n : ℕ),
    (∀ q ∈ r, q.1 ≤ q.2 ∧ q.2 < n) →
    r.Pairwise (fun a c => a.2 + 2 ≤ c.1) →
    (∀ q ∈ r, p0 ≤ q.1) → Canon p0 n r := by
  intro r
  induction r with
  | nil => intro _ _ _ _ _; trivial
  | cons hd t ih =>
    intro p0 n hmem hpw hp0
    obtain ⟨s, e⟩ := hd
    have h1 := hmem (s, e) (List.mem_cons_self _ _)
    refine ⟨hp0 (s, e) (List.mem_cons_self _ _), h1.1, h1.2, ?_⟩
    have hpw' := List.pairwise_cons.mp hpw
    exact ih (e + 2) n (fun q hq => hmem q (List.mem_cons_of_mem _ hq)) hpw'.2
      (fun q hq => hpw'.1 q hq)

/-- The membership array determined by a canonical interval list, written as
explicit runs: zeros up to each interval's start, ones across the closed
interval, and trailing zeros up to length `n`.  `p` is the position of the
first entry. -/
def runsList : ℕ → List (ℕ × ℕ) → ℕ → List Bool
  | p, [], n => List.replicate (n - p) false
  | p, (s, e) :: t, n =>
    List.replicate (s - p) false ++
      (List.replicate (e + 1 - s) true ++ runsList (e + 1) t n)

theorem length_runsList : ∀ (ivs : List (ℕ × ℕ)) (p n : ℕ), Canon p n ivs →
    p ≤ n → (runsList p ivs n).length = n - p := by
  intro ivs
  induction ivs with
  | nil => intro p n _ _; simp [runsList]
  | cons hd t ih =>
    intro p n h hpn
    obtain ⟨s, e⟩ := hd
    obtain ⟨h1, h2, h3, h4⟩ := h
    have hrec := ih (e + 1) n (Canon_mono t (by omega) h4) (by omega)
    simp only [runsList, List.length_append, List.length_replicate, hrec]
    omega

theorem getD_runsList : ∀ (ivs : List (ℕ × ℕ)) (p n q : ℕ), Canon p n ivs →
    p ≤ q → q < n →
    ((runsList p ivs n).getD (q - p) false = true ↔
      ∃ iv ∈ ivs, iv.1 ≤ q ∧ q ≤ iv.2) := by
  intro ivs
  induction ivs with
  | nil =>
    intro p n q _ hpq hqn
    simp only [runsList]
    constructor
    · intro h
      rw [getD_replicate_self] at h
      exact absurd h (by simp)
    · rintro ⟨iv, hiv, _⟩
      simp at hiv
  | cons hd t ih =>
    intro p n q h hpq hqn
    obtain ⟨s, e⟩ := hd
    obtain ⟨h1, h2, h3, h4⟩ := h
    simp only [runsList]
    rcases Nat.lt_or_ge q s with hqs | hqs
    · -- q lies in the leading zero run
      have hidx : q - p < (List.replicate (s - p) false).length := by
        simp only [List.length_replicate]; omega
      rw [List.getD_append _ _ _ _ hidx, getD_replicate_self]
      constructor
      · intro hfalse; exact absurd hfalse (by simp)
      · rintro ⟨iv, hiv, hiv1, hiv2⟩
        rcases List.mem_cons.mp hiv with rfl | hiv'
        · omega
        · have := Canon_mem t h4 iv hiv'
          omega
    · rcases Nat.lt_or_ge q (e + 1) with hqe | hqe
      · -- q lies inside the closed interval [s, e]
        have hidx1 : (List.replicate (s - p) false).length ≤ q - p := by
          simp only [List.length_replicate]; omega
        rw [List.getD_append_right _ _ _ _ hidx1]
        have hidx2 : q - p - (List.replicate (s - p) false).length <
            (List.replicate (e + 1 - s) true).length := by
          simp only [List.length_replicate]; omega
        rw [List.getD_append _ _ _ _ hidx2, getD_replicate_gen]
        rw [if_pos (by simpa using hidx2)]
        constructor
        · intro _
          exact ⟨(s, e), List.mem_cons_self _ _, by omega, by omega⟩
        · intro _; rfl
      · -- q lies beyond the interval: recurse
        have hidx1 : (List.replicate (s - p) false).length ≤ q - p := by
          simp only [List.length_replicate]; omega
        rw [List.getD_append_right _ _ _ _ hidx1]
        have hidx2 : (List.replicate (e + 1 - s) true).length ≤
            q - p - (List.replicate (s - p) false).length := by
          simp only [List.length_replicate]; omega
        rw [List.getD_append_right _ _ _ _ hidx2]
        have harith : q - p - (List.replicate (s - p) false).length -
            (List.replicate (e + 1 - s) true).length = q - (e + 1) := by
          simp only [List.length_replicate]; omega
        rw [harith]
        rw [ih (e + 1) n q (Canon_mono t (by omega) h4) (by omega) hqn]
        constructor
        · rintro ⟨iv, hiv, hc⟩
          exact ⟨iv, List.mem_cons_of_mem _ hiv, hc⟩
        · rintro ⟨iv, hiv, hc⟩
          rcases List.mem_cons.mp hiv with rfl | hiv'
          · omega
          · exact ⟨iv, hiv', hc⟩

theorem length_setRangeTrue (s e : ℕ) (l : List Bool) :
    (setRangeTrue s e l).length = l.length := by
  simp [setRangeTrue]

theorem getD_setRangeTrue (s e : ℕ) (l : List Bool) (q : ℕ) :
    (setRangeTrue s e l).getD q false =
      if q < l.length then (if s ≤ q ∧ q ≤ e then true else l.getD q false)
      else false := by
  by_cases hq : q < l.length
  · rw [if_pos hq]
    unfold setRangeTrue
    rw [getD_map_range _ _ _ _ hq]
  · rw [if_neg hq]
    rw [List.getD_eq_getElem?_getD, List.getElem?_eq_none]
    · rfl
    · rw [length_setRangeTrue]; omega

theorem length_raster (n : ℕ) (ivs : List (ℕ × ℕ)) : (raster n ivs).length = n := by
  suffices h : ∀ (l : List (ℕ × ℕ)) (acc : List Bool),
      (l.foldl (fun a p => setRangeTrue p.1 p.2 a) acc).length = acc.length by
    simpa [raster] using h ivs (List.replicate n false)
  intro l
  induction l with
  | nil => intro acc; rfl
  | cons p t ih => intro acc; simpa [length_setRangeTrue] using ih (setRangeTrue p.1 p.2 acc)

theorem getD_raster_foldl (ivs : List (ℕ × ℕ)) : ∀ (acc : List Bool) (q : ℕ),
    ((ivs.foldl (fun a p => setRangeTrue p.1 p.2 a) acc).getD q false = true ↔
      (q < acc.length ∧ ∃ iv ∈ ivs, iv.1 ≤ q ∧ q ≤ iv.2) ∨ acc.getD q false = true) := by
  induction ivs with
  | nil =>
    intro acc q
    simp
  | cons hd t ih =>
    intro acc q
    rw [List.foldl_cons, ih (setRangeTrue hd.1 hd.2 acc) q]
    rw [length_setRangeTrue, getD_setRangeTrue]
    by_cases hq : q < acc.length
    · rw [if_pos hq]
      constructor
      · rintro (⟨_, iv, hiv, hc⟩ | hset)
        · exact Or.inl ⟨hq, iv, List.mem_cons_of_mem _ hiv, hc⟩
        · by_cases hcov : hd.1 ≤ q ∧ q ≤ hd.2
          · exact Or.inl ⟨hq, hd, List.mem_cons_self _ _, hcov⟩
          · rw [if_neg hcov] at hset
            exact Or.inr hset
      · rintro (⟨_, iv, hiv, hc⟩ | hacc)
        · rcases List.mem_cons.mp hiv with rfl | hiv'
          · exact Or.inr (by rw [if_pos hc])
          · exact Or.inl ⟨hq, iv, hiv', hc⟩
        · by_cases hcov : hd.1 ≤ q ∧ q ≤ hd.2
          · exact Or.inr (by rw [if_pos hcov])
          · exact Or.inr (by rw [if_neg hcov]; exact hacc)
    · rw [if_neg hq]
      constructor
      · rintro (⟨hlt, _⟩ | hset)
        · omega
        · exact absurd hset (by simp)
      · rintro (⟨hlt, _⟩ | hacc)
        · omega
        · rw [List.getD_eq_getElem?_getD, List.getElem?_eq_none (by omega)] at hacc
          exact absurd hacc (by simp)

theorem getD_raster (n : ℕ) (ivs : List (ℕ × ℕ)) (q : ℕ) :
    ((raster n ivs).getD q false = true ↔
      q < n ∧ ∃ iv ∈ ivs, iv.1 ≤ q ∧ q ≤ iv.2) := by
  rw [raster, getD_raster_foldl]
  rw [List.length_replicate]
  constructor
  · rintro (h | h)
    · exact h
    · rw [getD_replicate_self] at h
      exact absurd h (by simp)
  · intro h
    exact Or.inl h

theorem raster_eq_runsList (n : ℕ) (ivs : List (ℕ × ℕ)) (h : Canon 0 n ivs) :
    raster n ivs = runsList 0 ivs n := by
  apply ext_getD false
  · rw [length_raster, length_runsList ivs 0 n h (by omega)]
    omega
  · intro q hq
    rw [length_raster] at hq
    apply bool_eq_of_iff
    rw [getD_raster]
    have := getD_runsList ivs 0 n q h (by omega) hq
    simp only [Nat.sub_zero] at this
    rw [this]
    constructor
    · rintro ⟨_, hx⟩; exact hx
    · intro hx; exact ⟨hq, hx⟩

theorem edgeScan_nil (prev : Bool) (pos : ℕ) : edgeScan prev pos [] = ([], []) := by
  cases prev <;> rfl

theorem edgeScan_replicate_false_nil (p k : ℕ) :
    edgeScan false p (List.replicate k false) = ([], []) := by
  rw [← List.append_nil (List.replicate k false), edgeScan_false_replicate]
  exact edgeScan_nil false (p + k)

theorem edgeScan_false_true_cons (p : ℕ) (rest : List Bool) :
    edgeScan false p (true :: rest) =
      (p :: (edgeScan true (p + 1) rest).1, (edgeScan true (p + 1) rest).2) := rfl

theorem edgeScan_true_false_cons (p : ℕ) (rest : List Bool) :
    edgeScan true p (false :: rest) =
      ((edgeScan false (p + 1) rest).1, p :: (edgeScan false (p + 1) rest).2) := rfl

theorem edgeScan_false_false_cons (p : ℕ) (rest : List Bool) :
    edgeScan false p (false :: rest) = edgeScan false (p + 1) rest := rfl

/-- Edge lists of a canonical runs array scanned from position `p` with
previous value 0: the up edges are exactly the interval starts and the down
edges are the positions one past each interval end, except that an interval
ending at the very last position produces no down edge. -/
theorem edgeScan_runsList : ∀ (ivs : List (ℕ × ℕ)) (p n : ℕ), Canon p n ivs →
    edgeScan false p (runsList p ivs n) =
      (ivs.map fun iv => iv.1,
        (ivs.map fun iv => iv.2 + 1).filter fun x => x < n) := by
  intro ivs
  induction ivs with
  | nil =>
    intro p n _
    simp only [runsList, List.map_nil, List.filter_nil]
    exact edgeScan_replicate_false_nil p (n - p)
  | cons hd t ih =>
    intro p n h
    obtain ⟨s, e⟩ := hd
    obtain ⟨h1, h2, h3, h4⟩ := h
    simp only [runsList]
    rw [edgeScan_false_replicate]
    have hps : p + (s - p) = s := by omega
    rw [hps]
    have hes : e + 1 - s = (e - s) + 1 := by omega
    rw [hes, List.replicate_succ, List.cons_append]
    rw [edgeScan_false_true_cons, edgeScan_true_replicate]
    have hse1 : s + 1 + (e - s) = e + 1 := by omega
    rw [hse1]
    have hrec := ih (e + 1) n (Canon_mono t (by omega) h4)
    cases t with
    | nil =>
      simp only [runsList] at hrec ⊢
      rcases Nat.lt_or_ge (e + 1) n with hlt | hge
      · have hm : n - (e + 1) = (n - (e + 1) - 1) + 1 := by omega
        rw [hm, List.replicate_succ]
        rw [edgeScan_true_false_cons, edgeScan_replicate_false_nil]
        simp only [List.map_cons, List.map_nil]
        rw [List.filter_cons_of_pos (by simpa using hlt), List.filter_nil]
      · have hm : n - (e + 1) = 0 := by omega
        rw [hm, List.replicate_zero, edgeScan_nil]
        simp only [List.map_cons, List.map_nil]
        rw [List.filter_cons_of_neg (by simp; omega), List.filter_nil]
    | cons hd2 t2 =>
      obtain ⟨s2, e2⟩ := hd2
      obtain ⟨g1, g2, g3, g4⟩ := h4
      simp only [runsList] at hrec ⊢
      have hgap : s2 - (e + 1) = (s2 - (e + 1) - 1) + 1 := by omega
      rw [hgap, List.replicate_succ, List.cons_append] at hrec ⊢
      rw [edgeScan_false_false_cons] at hrec
      rw [edgeScan_true_false_cons, hrec]
      have hmapeq : List.map (fun iv => iv.2 + 1) (((s, e) : ℕ × ℕ) :: (s2, e2) :: t2) =
          (e + 1) :: List.map (fun iv => iv.2 + 1) ((s2, e2) :: t2) := rfl
      rw [hmapeq, List.filter_cons_of_pos (by simpa using (show e + 1 < n by omega))]
      rfl

theorem mergeLoopF_no_merge (sp : ℕ) : ∀ (fuel i : ℕ) (up down : List ℕ),
    (∀ j, j + 1 < up.length →
      (sp : ℤ) < (up.getD (j + 1) 0 : ℤ) - (down.getD j 0 : ℤ)) →
    mergeLoopF sp fuel i up down = (up, down) := by
  intro fuel
  induction fuel with
  | zero => intro i up down _; rfl
  | succ f ih =>
    intro i up down h
    show mergeLoopF sp (f + 1) i up down = (up, down)
    rw [mergeLoopF]
    by_cases h1 : i + 1 < up.length
    · rw [if_pos h1, if_neg (by have := h i h1; omega)]
      exact ih (i + 1) up down h
    · rw [if_neg h1]

theorem sorted_filter_append (M : List ℕ) (n : ℕ) : M.Pairwise (· < ·) →
    (∀ x ∈ M, x ≤ n) → ∀ i, i < M.length →
      ((M.filter fun x => x < n) ++ [n]).getD i 0 = M.getD i 0 := by
  induction M with
  | nil => intro _ _ i hi; simp at hi
  | cons a t ih =>
    intro hs hb i hi
    by_cases ha : a < n
    · rw [List.filter_cons_of_pos (by simpa using ha), List.cons_append]
      cases i with
      | zero => simp
      | succ j =>
        simp only [List.getD_cons_succ]
        exact ih (List.pairwise_cons.mp hs).2
          (fun x hx => hb x (List.mem_cons_of_mem _ hx)) j (by simpa using hi)
    · have han : a = n := by have := hb a (List.mem_cons_self _ _); omega
      cases t with
      | nil =>
        rw [List.filter_cons_of_neg (by simpa using ha), List.filter_nil,
          List.nil_append]
        have hi0 : i = 0 := by simpa using hi
        subst hi0
        simp [han]
      | cons c t2 =>
        have hac := (List.pairwise_cons.mp hs).1 c (List.mem_cons_self _ _)
        have := hb c (List.mem_cons_of_mem _ (List.mem_cons_self _ _))
        omega

theorem getD_map_fst (r : List (ℕ × ℕ)) : ∀ i : ℕ,
    (r.map fun iv => iv.1).getD i 0 = (r.getD i (0, 0)).1 := by
  induction r with
  | nil => intro i; simp
  | cons a t ih =>
    intro i
    cases i with
    | zero => simp
    | succ j => simpa using ih j

theorem getD_map_esucc (r : List (ℕ × ℕ)) : ∀ i : ℕ, i < r.length →
    (r.map fun iv => iv.2 + 1).getD i 0 = (r.getD i (0, 0)).2 + 1 := by
  induction r with
  | nil => intro i hi; simp at hi
  | cons a t ih =>
    intro i hi
    cases i with
    | zero => simp
    | succ j => simpa using ih j (by simpa using hi)

theorem filterMap_eq_map_of_some {α β : Type _} (l : List α) (f : α → Option β)
    (g : α → β) (h : ∀ x ∈ l, f x = some (g x)) : l.filterMap f = l.map g := by
  induction l with
  | nil => rfl
  | cons a t ih =>
    rw [List.filterMap_cons, h a (List.mem_cons_self _ _), List.map_cons]
    rw [ih (fun x hx => h x (List.mem_cons_of_mem _ hx))]

theorem map_getD_range {α : Type _} (l : List α) (d : α) :
    (List.range l.length).map (fun i => l.getD i d) = l := by
  induction l with
  | nil => rfl
  | cons a t ih =>
    show (List.range (t.length + 1)).map (fun i => (a :: t).getD i d) = a :: t
    rw [List.range_succ_eq_map, List.map_cons, List.map_map]
    have : (List.range t.length).map ((fun i => (a :: t).getD i d) ∘ (· + 1)) =
        (List.range t.length).map (fun i => t.getD i d) := by
      apply List.map_congr_left
      intro i _
      rfl
    rw [this, ih]
    rfl

theorem truncateBool_eq_self {n : ℕ} {l : List Bool}
    (h : ∀ i, i < n → l.getD i false = false) : truncateBool n l = l := by
  induction l generalizing n with
  | nil => cases n <;> rfl
  | cons x xs ih =>
    cases n with
    | zero => rfl
    | succ m =>
      have hx : x = false := by simpa using h 0 (by omega)
      show false :: truncateBool m xs = x :: xs
      rw [hx, ih (fun i hi => by simpa using h (i + 1) (by omega))]

theorem upEdges_replicate_false (n : ℕ) :
    upEdges (List.replicate n false) = [] ∧
      downEdgesScan (List.replicate n false) = [] := by
  cases n with
  | zero => exact ⟨rfl, rfl⟩
  | succ m =>
    rw [List.replicate_succ]
    show (edgeScan false 1 (List.replicate m false)).1 = [] ∧
      (edgeScan false 1 (List.replicate m false)).2 = []
    rw [edgeScan_replicate_false_nil]
    exact ⟨rfl, rfl⟩

theorem getD_mem_gen {α : Type _} {l : List α} {i : ℕ} (h : i < l.length) (d : α) :
    l.getD i d ∈ l := by
  rw [getD_eq_get_gen h d]
  exact List.get_mem _ _ _

theorem runsList_zero_cons (s e : ℕ) (t : List (ℕ × ℕ)) (n : ℕ) (hs : 1 ≤ s) :
    runsList 0 ((s, e) :: t) n = false :: runsList 1 ((s, e) :: t) n := by
  simp only [runsList]
  have h0 : s - 0 = (s - 1) + 1 := by omega
  rw [h0, List.replicate_succ]
  rfl

theorem edges_canon (r : List (ℕ × ℕ)) (n : ℕ) (h1 : Canon 1 n r) :
    upEdges (runsList 0 r n) = r.map (fun iv => iv.1) ∧
      downEdgesScan (runsList 0 r n) =
        (r.map fun iv => iv.2 + 1).filter (fun x => x < n) := by
  cases r with
  | nil =>
    simp only [runsList, List.map_nil, List.filter_nil, Nat.sub_zero]
    exact upEdges_replicate_false n
  | cons hd t =>
    obtain ⟨s, e⟩ := hd
    have hs : 1 ≤ s := h1.1
    rw [runsList_zero_cons s e t n hs]
    constructor
    · show (edgeScan false 1 (runsList 1 ((s, e) :: t) n)).1 = _
      rw [edgeScan_runsList _ _ _ h1]
    · show (edgeScan false 1 (runsList 1 ((s, e) :: t) n)).2 = _
      rw [edgeScan_runsList _ _ _ h1]

/-- C8 (confirmed): rasterizing the Element Grouper's output intervals back
into a boolean membership array (each closed interval set to 1, array length
unchanged) and re-running `count_domain_sses` with spacing 0, the same
minimum length and the same domain window reproduces exactly the same
interval list. -/
theorem claim_C8 (ds de sp ml : ℕ) (b : List Bool) :
    count_domain_sses ds de 0 ml
        (raster b.length (count_domain_sses ds de sp ml b)) =
      count_domain_sses ds de sp ml b := by
  set r := count_domain_sses ds de sp ml b with hr
  have hfacts : ∀ q ∈ r, 1 ≤ q.1 ∧ ds ≤ q.1 ∧ q.1 < de ∧ q.1 ≤ q.2 ∧
      q.2 + 1 ≤ b.length ∧ ml ≤ q.2 + 1 - q.1 :=
    fun q hq => count_elem_facts ds de sp ml b q hq
  have hpw : r.Pairwise (fun p q => p.2 + 1 < q.1) := count_pairwise ds de sp ml b
  have hpw2 : r.Pairwise (fun a c => a.2 + 2 ≤ c.1) := hpw.imp (fun h => by omega)
  have hcanon1 : Canon 1 b.length r :=
    canon_of_facts r 1 b.length
      (fun q hq => ⟨(hfacts q hq).2.2.2.1, by have := hfacts q hq; omega⟩) hpw2
      (fun q hq => (hfacts q hq).1)
  have hcanon0 : Canon 0 b.length r := Canon_mono r (by omega) hcanon1
  set A := raster b.length r with hA
  have hAe : A = runsList 0 r b.length := raster_eq_runsList _ _ hcanon0
  have hAlen : A.length = b.length := length_raster _ _
  have htr : truncateBool ds A = A := by
    apply truncateBool_eq_self
    intro i hi
    cases hAv : A.getD i false with
    | false => rfl
    | true =>
      exfalso
      rw [hA] at hAv
      obtain ⟨_, q, hq, hq1, _⟩ := (getD_raster b.length r i).mp hAv
      have := hfacts q hq
      omega
  have hedges := edges_canon r b.length hcanon1
  set upl := List.map (fun iv => iv.1) r with hupl
  set dnl := (List.filter (fun x => decide (x < b.length))
    (List.map (fun iv => iv.2 + 1) r)) ++ [b.length] with hdnl
  have hup : upEdges A = upl := by rw [hAe]; exact hedges.1
  have hdn : downEdges A = dnl := by
    have h2 : downEdgesScan A = List.filter (fun x => decide (x < b.length))
        (List.map (fun iv => iv.2 + 1) r) := by
      rw [hAe]; exact hedges.2
    rw [downEdges, h2, hAlen, hdnl]
  have hMsorted : (List.map (fun iv => iv.2 + 1) r).Pairwise (· < ·) := by
    rw [List.pairwise_map]
    refine List.Pairwise.imp_of_mem ?_ hpw
    intro p q hp hq hrel
    have := hfacts q hq
    omega
  have hMbound : ∀ x ∈ List.map (fun iv => iv.2 + 1) r, x ≤ b.length := by
    intro x hx
    obtain ⟨q, hq, rfl⟩ := List.mem_map.mp hx
    have := hfacts q hq
    omega
  have huplen : upl.length = r.length := by rw [hupl, List.length_map]
  have hDgetD : ∀ i, i < r.length → dnl.getD i 0 = (r.getD i (0, 0)).2 + 1 := by
    intro i hi
    rw [hdnl, sorted_filter_append _ b.length hMsorted hMbound i (by simpa using hi)]
    exact getD_map_esucc r i hi
  have hUgetD : ∀ i, upl.getD i 0 = (r.getD i (0, 0)).1 := by
    intro i
    rw [hupl]
    exact getD_map_fst r i
  have hgap : ∀ j, j + 1 < upl.length →
      ((0 : ℕ) : ℤ) < (upl.getD (j + 1) 0 : ℤ) - (dnl.getD j 0 : ℤ) := by
    intro j hj
    rw [huplen] at hj
    rw [hUgetD, hDgetD j (by omega)]
    have hrel : (r.getD j (0, 0)).2 + 1 < (r.getD (j + 1) (0, 0)).1 := by
      rw [getD_eq_get_gen (by omega) ((0, 0) : ℕ × ℕ),
        getD_eq_get_gen hj ((0, 0) : ℕ × ℕ)]
      exact List.pairwise_iff_get.mp hpw ⟨j, by omega⟩ ⟨j + 1, hj⟩
        (Fin.mk_lt_mk.mpr (by omega))
    push_cast
    omega
  have hnm : mergeLoopF 0 (2 * upl.length + 2) 0 upl dnl = (upl, dnl) :=
    mergeLoopF_no_merge 0 _ 0 upl dnl hgap
  show count_domain_sses ds de 0 ml A = r
  simp only [count_domain_sses]
  rw [htr, hup, hdn, hnm]
  dsimp only
  rw [huplen]
  rw [filterMap_eq_map_of_some _ _ (fun i => r.getD i (0, 0)) ?hsome]
  · exact map_getD_range r (0, 0)
  case hsome =>
    intro i hi
    have hiL : i < r.length := List.mem_range.mp hi
    rw [hUgetD, hDgetD i hiL]
    have hqmem : r.getD i (0, 0) ∈ r := getD_mem_gen hiL (0, 0)
    have hq := hfacts _ hqmem
    rw [if_neg (by push_cast; omega), if_pos (by omega)]
    rw [Nat.add_sub_cancel]

/-- Python-dictionary lookup on an association list: later writes win, a
missing key gives `none` (a plain `dict[k]` read would raise `KeyError`). -/
def dictGetZ (l : List (ℤ × String)) (k : ℤ) : Option String :=
  l.foldl (fun acc p => if p.1 = k then some p.2 else acc) none

/-- `make_anchor_dict` (sse_func.py lines 1081-1105): anchors strictly below
the subdomain boundary are labeled `H<idx+1>` in enumeration order, anchors
strictly above it `S<idx+1>`; an anchor equal to the boundary is dropped. -/
def make_anchor_dict (fixed_anchors : List ℤ) (sd_boundary : ℤ) : List (ℤ × String) :=
  let helices := fixed_anchors.filter (fun a => a < sd_boundary)
  let sheets := fixed_anchors.filter (fun a => sd_boundary < a)
  (helices.enum.map fun p => (p.2, "H" ++ toString (p.1 + 1))) ++
    (sheets.enum.map fun p => (p.2, "S" ++ toString (p.1 + 1)))

theorem dict_foldl_notin (k : ℤ) : ∀ (l : List (ℤ × String)) (init : Option String),
    (∀ p ∈ l, p.1 ≠ k) →
    l.foldl (fun acc p => if p.1 = k then some p.2 else acc) init = init := by
  intro l
  induction l with
  | nil => intro init _; rfl
  | cons p t ih =>
    intro init h
    rw [List.foldl_cons, if_neg (h p (List.mem_cons_self _ _))]
    exact ih init (fun q hq => h q (List.mem_cons_of_mem _ hq))

theorem snd_mem_of_mem_enumFrom {α : Type _} {t : List α} {n : ℕ} {q : ℕ × α}
    (hq : q ∈ List.enumFrom n t) : q.2 ∈ t := by
  have h := List.mem_enumFrom hq
  rw [h.2.2]
  exact List.getElem_mem _

theorem dict_enumFrom_get (f : ℕ → String) : ∀ (h : List ℤ) (n : ℕ) (a : ℤ)
    (init : Option String), h.Nodup → a ∈ h →
    ((h.enumFrom n).map fun p => ((p.2 : ℤ), f p.1)).foldl
        (fun acc p => if p.1 = a then some p.2 else acc) init =
      some (f (n + h.indexOf a)) := by
  intro h
  induction h with
  | nil => intro n a init _ ha; simp at ha
  | cons x t ih =>
    intro n a init hnd ha
    rw [List.enumFrom_cons, List.map_cons, List.foldl_cons]
    by_cases hxa : x = a
    · subst hxa
      rw [if_pos rfl]
      have hnot : ∀ p ∈ (t.enumFrom (n + 1)).map
          (fun p => ((p.2 : ℤ), f p.1)), p.1 ≠ x := by
        intro p hp
        obtain ⟨q, hq, rfl⟩ := List.mem_map.mp hp
        have hqt : q.2 ∈ t := snd_mem_of_mem_enumFrom hq
        intro hcontra
        apply (List.nodup_cons.mp hnd).1
        show x ∈ t
        have : q.2 = x := hcontra
        rw [← this]
        exact hqt
      rw [dict_foldl_notin x _ _ hnot]
      rw [List.indexOf_cons_self]
      simp
    · rw [if_neg (by simpa using hxa)]
      have hat : a ∈ t := by
        rcases List.mem_cons.mp ha with rfl | hat
        · exact absurd rfl hxa
        · exact hat
      rw [ih (n + 1) a init (List.nodup_cons.mp hnd).2 hat]
      rw [List.indexOf_cons_ne t hxa]
      have harith : n + 1 + List.indexOf a t = n + (List.indexOf a t + 1) := by omega
      rw [harith]

theorem dict_enum_get (f : ℕ → String) (h : List ℤ) (a : ℤ) (init : Option String)
    (hnd : h.Nodup) (ha : a ∈ h) :
    (h.enum.map fun p => ((p.2 : ℤ), f p.1)).foldl
        (fun acc p => if p.1 = a then some p.2 else acc) init =
      some (f (h.indexOf a)) := by
  have heq : h.enum = List.enumFrom 0 h := rfl
  rw [heq, dict_enumFrom_get f h 0 a init hnd ha]
  rw [Nat.zero_add]

/-- C10 (confirmed): for distinct anchors, `make_anchor_dict` labels each
anchor strictly below the boundary `H` followed by its 1-based enumeration
order among the below-boundary anchors, each anchor strictly above the
boundary `S` followed by its 1-based order among the above-boundary anchors,
and an anchor equal to the boundary gets no label and is absent from the
dictionary. -/
theorem claim_C10 (l : List ℤ) (bdr : ℤ) (hnd : l.Nodup) :
    (∀ a ∈ l, a < bdr →
        dictGetZ (make_anchor_dict l bdr) a =
          some ("H" ++ toString ((l.filter (fun x => x < bdr)).indexOf a + 1))) ∧
      (∀ a ∈ l, bdr < a →
        dictGetZ (make_anchor_dict l bdr) a =
          some ("S" ++ toString ((l.filter (fun x => bdr < x)).indexOf a + 1))) ∧
      dictGetZ (make_anchor_dict l bdr) bdr = none := by
  have hhel_keys : ∀ p ∈ (l.filter (fun a => a < bdr)).enum.map
      (fun p => ((p.2 : ℤ), "H" ++ toString (p.1 + 1))), p.1 < bdr := by
    intro p hp
    obtain ⟨q, hq, rfl⟩ := List.mem_map.mp hp
    have hmem : q.2 ∈ l.filter (fun a => a < bdr) := snd_mem_of_mem_enumFrom hq
    simpa using (List.mem_filter.mp hmem).2
  have hshe_keys : ∀ p ∈ (l.filter (fun a => bdr < a)).enum.map
      (fun p => ((p.2 : ℤ), "S" ++ toString (p.1 + 1))), bdr < p.1 := by
    intro p hp
    obtain ⟨q, hq, rfl⟩ := List.mem_map.mp hp
    have hmem : q.2 ∈ l.filter (fun a => bdr < a) := snd_mem_of_mem_enumFrom hq
    simpa using (List.mem_filter.mp hmem).2
  refine ⟨?_, ?_, ?_⟩
  · intro a ha habdr
    show (List.foldl _ none (_ ++ _)) = _
    rw [List.foldl_append]
    rw [dict_foldl_notin a _ _ (fun p hp => by have := hshe_keys p hp; omega)]
    have hmemf : a ∈ l.filter (fun x => x < bdr) :=
      List.mem_filter.mpr ⟨ha, by simpa using habdr⟩
    rw [dict_enum_get (fun i => "H" ++ toString (i + 1)) _ a none
      (hnd.filter _) hmemf]
  · intro a ha habdr
    show (List.foldl _ none (_ ++ _)) = _
    rw [List.foldl_append]
    have hmemf : a ∈ l.filter (fun x => bdr < x) :=
      List.mem_filter.mpr ⟨ha, by simpa using habdr⟩
    rw [dict_enum_get (fun i => "S" ++ toString (i + 1)) _ a _
      (hnd.filter _) hmemf]
  · show (List.foldl _ none (_ ++ _)) = _
    rw [List.foldl_append]
    rw [dict_foldl_notin bdr _ _ (fun p hp => by have := hshe_keys p hp; omega)]
    rw [dict_foldl_notin bdr _ _ (fun p hp => by have := hhel_keys p hp; omega)]

/-- Witness for C10 on the anchors [3, 10, 7] with boundary 5: anchor 7 is
the second above-boundary anchor, and the boundary itself has no label. -/
theorem claim_C10_witness :
    dictGetZ (make_anchor_dict [3, 10, 7] 5) 7 =
        some ("S" ++ toString ((([3, 10, 7].filter
          (fun x => (5 : ℤ) < x)).indexOf 7) + 1)) ∧
      dictGetZ (make_anchor_dict [3, 10, 7] 5) 5 = none :=
  ⟨((claim_C10 [3, 10, 7] 5 (by decide)).2.1) 7 (by decide) (by decide),
    (claim_C10 [3, 10, 7] 5 (by decide)).2.2⟩

/-- Python list indexing with negative wrap-around; an out-of-range access
(which would raise `IndexError`) is given the harmless default 0 — every
input used in a theorem below stays in range. -/
def pyIdxZ (l : List ℤ) (i : ℤ) : ℤ :=
  if i < 0 then l.getD (l.length - (-i).toNat) 0 else l.getD i.toNat 0

def listMax (l : List ℤ) : ℤ := l.foldl max (l.headD 0)

def listMin (l : List ℤ) : ℤ := l.foldl min (l.headD 0)

/-- The inner `terminate` helper of `disambiguate_anchors` (sse_func.py lines
1159-1181): from the center residue, cut the element at the nearest break
residue on each side (inclusive or exclusive via `terminal`), falling back to
the element bounds. -/
def terminate (sse : ℤ × ℤ) (center : ℤ) (breaks : List ℤ) (incl : Bool) : ℤ × ℤ :=
  let terminal : ℤ := if incl then 0 else -1
  let n_breaks := breaks.filter (fun r => decide (r < center) && decide (sse.1 ≤ r))
  let c_breaks := breaks.filter (fun r => decide (center < r) && decide (r ≤ sse.2))
  let nb := if n_breaks ≠ [] then listMax n_breaks - terminal else sse.1
  let cb := if c_breaks ≠ [] then listMin c_breaks + terminal else sse.2
  (nb, cb)

/-- `create_name_list` (sse_func.py lines 1140-1146): offset labels centered
at 50 on the reference residue. -/
def create_name_list (sse : ℤ × ℤ) (ref : ℤ) (nm : String) : List String :=
  (List.range (sse.2 + 1 - sse.1).toNat).map fun k =>
    nm ++ "." ++ toString (50 + sse.1 - ref + k)

/-- `anchor_dict[...]` lookup; a missing key raises `KeyError`. -/
def lookupAnchorName (anchorNames : List (ℤ × String)) (k : ℤ) :
    Except String String :=
  match dictGetZ anchorNames k with
  | some v => Except.ok v
  | none => Except.error "KeyError"

/-- Whether some residue of `l` lies strictly between the two anchor
residues, in either order (sse_func.py lines 1200-1211). -/
def hasBreakBetween (r1 r2 : ℤ) (l : List ℤ) : Bool :=
  l.any fun c => (decide (r1 < c) && decide (c < r2)) ||
    (decide (r2 < c) && decide (c < r1))

/-- The breaker search of single mode (sse_func.py lines 1254-1266): try
offsets 1..19 from the lower-priority anchor, first to the C-terminal then
the N-terminal side, returning the breaker's list position and value. -/
def findBreaker (lower_res : ℤ) (br : List ℤ) : Option (ℕ × ℤ) :=
  (List.range 19).findSome? fun o =>
    let off : ℤ := (o : ℤ) + 1
    if (lower_res + off) ∈ br then
      some (br.indexOf (lower_res + off), lower_res + off)
    else if (lower_res - off) ∈ br then
      some (br.indexOf (lower_res - off), lower_res - off)
    else none

inductive SplitMode where
  | single : SplitMode
  | double : SplitMode
deriving DecidableEq

/-- The overwrite outcome of `disambiguate_anchors` when no break residue
separates the anchors: keep the whole element on the better-scored anchor. -/
def overwriteResult (ai : List ℤ) (anchorNames : List (ℤ × String))
    (stored_w new_w : ℚ) (stored_res new_res : ℤ) (sse : ℤ × ℤ) :
    Except String (List ((ℤ × ℤ) × List String × ((ℤ × ℤ) × ℤ × String)) × Bool) :=
  let ref := if new_w > stored_w then new_res else stored_res
  match lookupAnchorName anchorNames (pyIdxZ ai ref) with
  | Except.ok nm =>
    Except.ok ([(sse, create_name_list sse ref nm, (sse, ref, nm))], false)
  | Except.error e => Except.error e

/-- The inner `disambiguate_anchors` of `create_indexing` (sse_func.py lines
1156-1304).  The local variable `breaker_residues` is assigned only inside
the `mode == 'single'` branch of the source; in double mode its use in
`terminate(...)` therefore raises `UnboundLocalError`, modelled as an error
result. -/
def disambiguate_anchors (ai : List ℤ) (anchorNames : List (ℤ × String))
    (stored_w : ℚ) (stored_res : ℤ) (new_w : ℚ) (new_res : ℤ) (sse : ℤ × ℤ)
    (coiled_residues outlier_residues : List ℤ) (mode : SplitMode) :
    Except String (List ((ℤ × ℤ) × List String × ((ℤ × ℤ) × ℤ × String)) × Bool) :=
  if coiled_residues = [] ∧ outlier_residues = [] then
    overwriteResult ai anchorNames stored_w new_w stored_res new_res sse
  else
    let hasCoiled := hasBreakBetween stored_res new_res coiled_residues
    let hasOutlier := hasBreakBetween stored_res new_res outlier_residues
    if hasCoiled = false ∧ hasOutlier = false then
      overwriteResult ai anchorNames stored_w new_w stored_res new_res sse
    else
      match mode with
      | SplitMode.single =>
        let lower_res := if stored_w > new_w then new_res else stored_res
        let breaker_residues := if hasCoiled then coiled_residues else outlier_residues
        match findBreaker lower_res breaker_residues with
        | none => Except.error "BREAKER residue not found"
        | some oi =>
          let terminal : ℤ := if hasCoiled then 1 else 0
          let bval := breaker_residues.getD oi.1 0
          let seg_N := (sse.1, bval - terminal)
          let seg_C := (bval + terminal, sse.2)
          let seg_stored := if stored_res < oi.2 then seg_N else seg_C
          let seg_new := if stored_res < oi.2 then seg_C else seg_N
          match lookupAnchorName anchorNames (pyIdxZ ai stored_res),
              lookupAnchorName anchorNames (pyIdxZ ai new_res) with
          | Except.ok snm, Except.ok nnm =>
            Except.ok ([(seg_stored, create_name_list seg_stored stored_res snm,
                (seg_stored, stored_res, snm)),
              (seg_new, create_name_list seg_new new_res nnm,
                (seg_new, new_res, nnm))], true)
          | Except.error e, _ => Except.error e
          | _, Except.error e => Except.error e
      | SplitMode.double => Except.error "UnboundLocalError: breaker_residues"

/-- C4 is contradicted by the code: whenever two anchors share an element and
a break residue (coiled or outlier) lies between them, split mode 'double'
does not return two trimmed segments — it crashes, because the source assigns
`breaker_residues` only inside the `mode == 'single'` branch and then reads
it in the double-mode `terminate` calls (`UnboundLocalError`). -/
theorem claim_C4 (ai : List ℤ) (an : List (ℤ × String)) (sw nw : ℚ) (sr nr : ℤ)
    (sse : ℤ × ℤ) (co ou : List ℤ)
    (h : hasBreakBetween sr nr co = true ∨ hasBreakBetween sr nr ou = true) :
    disambiguate_anchors ai an sw sr nw nr sse co ou SplitMode.double =
      Except.error "UnboundLocalError: breaker_residues" := by
  unfold disambiguate_anchors
  rw [if_neg ?hne]
  case hne =>
    rintro ⟨rfl, rfl⟩
    rcases h with h | h <;> exact absurd h (by simp [hasBreakBetween])
  rw [if_neg ?hbrk]
  case hbrk =>
    rintro ⟨h1, h2⟩
    rcases h with h | h
    · rw [h1] at h; exact Bool.noConfusion h
    · rw [h2] at h; exact Bool.noConfusion h

/-- Witness for C4: anchors at residues 2 (weight 9/10) and 8 (weight 2/5)
inside the element (0, 10) with a coiled residue at 5 — double mode errors. -/
theorem claim_C4_witness :
    disambiguate_anchors [100, 101, 102, 103, 104, 105, 106, 107, 108, 109, 110]
        [(102, "H1"), (108, "H2")] (9/10) 2 (2/5) 8 (0, 10) [5] []
        SplitMode.double =
      Except.error "UnboundLocalError: breaker_residues" :=
  claim_C4 _ _ _ _ _ _ _ _ _ (Or.inl (by decide))

/-- The boundary correction on the element's last residue in `create_indexing`
(sse_func.py lines 1332-1337): a detected element exceeding the domain extent
is scanned only up to `sse[1] - 1`. -/
def sseEndCorr (sse : ℕ × ℕ) (gstart gend : ℕ) : ℕ :=
  if (sse.2 : ℤ) > (gend : ℤ) - (gstart : ℤ) - 1 then sse.2 - 1 else sse.2

/-- The residues of the element whose alignment column is one of the anchor
columns, as scanned by the exact-match loop of `create_indexing` (sse_func.py
lines 1345-1365); residues outside the alignment-index array are skipped. -/
def exactHits (ai anchors : List ℤ) (sse : ℕ × ℕ) (sse_end : ℕ) : List ℕ :=
  ((List.range (sse_end + 1 - sse.1)).map (sse.1 + ·)).filter
    (fun res => decide (res < ai.length) && decide (ai.getD res 0 ∈ anchors))

/-- `last_col` of `create_indexing` (sse_func.py lines 1331-1337). -/
def lastColCorr (ai : List ℤ) (sse : ℕ × ℕ) (gstart gend : ℕ) : ℤ :=
  if (sse.2 : ℤ) > (gend : ℤ) - (gstart : ℤ) - 1 then pyIdxZ ai (-1)
  else pyIdxZ ai (sse.2 : ℤ)

/-- `ex_first_col = alignment_indices[sse[0] - 1]` (sse_func.py line 1418);
note the Python wrap-around when `sse[0] = 0`. -/
def exFirstCol (ai : List ℤ) (sse : ℕ × ℕ) : ℤ :=
  pyIdxZ ai ((sse.1 : ℤ) - 1)

/-- `ex_last_col` with its `except` fallback to `last_col` (sse_func.py lines
1419-1422). -/
def exLastCol (ai : List ℤ) (sse : ℕ × ℕ) (gstart gend : ℕ) : ℤ :=
  if sse.2 + 1 < ai.length then ai.getD (sse.2 + 1) 0
  else lastColCorr ai sse gstart gend

/-- The widened-by-one fuzzy interval search of `create_indexing` (sse_func.py
lines 1425-1441): some anchor column falls inside the widened column span. -/
def fuzzyFlag (ai anchors : List ℤ) (sse : ℕ × ℕ) (gstart gend : ℕ) : Bool :=
  anchors.any fun peak => decide (exFirstCol ai sse ≤ peak) &&
    decide (peak ≤ exLastCol ai sse gstart gend)

inductive ElementFate where
  | indexed : ElementFate
  | ambiguousSplit : ElementFate
  | unindexedAdded : ℤ → ElementFate
  | dropped : ElementFate
deriving DecidableEq

/-- The fate of one grouped element in `create_indexing` (sse_func.py lines
1339-1458), at the granularity of its control flow: an unambiguous exact
match or a fuzzy match is indexed; an ambiguous element is split and cast;
otherwise the element's start alignment column is appended to `unindexed`
when `sse[1] - sse[0] > 3`, and the element is silently dropped when not. -/
def elementFate (ai anchors : List ℤ) (sse : ℕ × ℕ) (gstart gend : ℕ) :
    ElementFate :=
  let hits := exactHits ai anchors sse (sseEndCorr sse gstart gend)
  let exact := !hits.isEmpty
  let ambiguous := decide (2 ≤ hits.length)
  let fuzzy := !exact && fuzzyFlag ai anchors sse gstart gend
  if (ambiguous = false ∧ exact = true) ∨ fuzzy = true then ElementFate.indexed
  else if ambiguous = true then ElementFate.ambiguousSplit
  else if (sse.2 : ℤ) - (sse.1 : ℤ) > 3 then
    ElementFate.unindexedAdded (pyIdxZ ai (sse.1 : ℤ))
  else ElementFate.dropped

/-- C6, as stated, is false: an unmatched element spanning residues 0..3 has
residue length 4 > 3, so the claim requires it to be appended to the
unindexed list, but the source tests `sse[1] - sse[0] > 3` (3 > 3 fails) and
silently drops it. -/
theorem claim_C6_counterexample :
    elementFate [10, 11, 12, 13, 14] [] (0, 3) 0 30 = ElementFate.dropped ∧
      ((3 : ℤ) - 0 + 1 > 3) := by
  constructor
  · decide
  · decide

/-- C6 (corrected): a grouped element matched by neither the exact-residue
search nor the widened-by-one fuzzy interval search has its start alignment
column appended to the unindexed list exactly when `end - start > 3`, i.e.
when it spans at least 5 residues; an unmatched element spanning 4 or fewer
residues is silently dropped and appears in no output. -/
theorem claim_C6 (ai anchors : List ℤ) (sse : ℕ × ℕ) (gstart gend : ℕ)
    (hex : exactHits ai anchors sse (sseEndCorr sse gstart gend) = [])
    (hfz : fuzzyFlag ai anchors sse gstart gend = false) :
    elementFate ai anchors sse gstart gend =
      if (sse.2 : ℤ) - (sse.1 : ℤ) > 3 then
        ElementFate.unindexedAdded (pyIdxZ ai (sse.1 : ℤ))
      else ElementFate.dropped := by
  unfold elementFate
  rw [hex, hfz]
  simp

/-- Witness for C6: the unmatched element (0, 4) spans five residues and is
recorded as unindexed under its start alignment column. -/
theorem claim_C6_witness :
    elementFate [10, 11, 12, 13, 14, 15] [] (0, 4) 0 30 =
      if ((4 : ℤ) - (0 : ℤ) > 3) then
        ElementFate.unindexedAdded (pyIdxZ [10, 11, 12, 13, 14, 15] (0 : ℤ))
      else ElementFate.dropped :=
  claim_C6 [10, 11, 12, 13, 14, 15] [] (0, 4) 0 30 (by decide) (by decide)

/-- Python `str.find`: the smallest index where `needle` occurs in `hay`,
or -1 when it does not occur. -/
def strFind (hay needle : List Char) : ℤ :=
  match (List.range (hay.length + 1)).find? (fun i => needle.isPrefixOf (hay.drop i)) with
  | some i => (i : ℤ)
  | none => -1

/-- Python list indexing returning `none` for an `IndexError`, with negative
wrap-around. -/
def pyListGetNat (l : List ℕ) (i : ℤ) : Option ℕ :=
  if 0 ≤ i then
    (if i.toNat < l.length then some (l.getD i.toNat 0) else none)
  else
    (if (-i).toNat ≤ l.length then some (l.getD (l.length - (-i).toNat) 0) else none)

/-- `find_the_start` (sse_func.py lines 676-709): locate the first 15 residues
of the sequence inside the gap-stripped alignment row and map back to the
gapped column index.  When `str.find` misses it returns -1, and
`filter_id[locator]` silently yields the LAST non-gap column (Python negative
indexing); only an empty gap-stripped row raises `IndexError` (`none`). -/
def find_the_start (longseq shortseq : List Char) : Option ℕ :=
  let findstring := shortseq.take 15
  let filtered := longseq.enum.filter (fun p => p.2 ≠ '-')
  let locator := strFind (filtered.map (fun p => p.2)) findstring
  pyListGetNat (filtered.map (fun p => p.1)) locator

/-- `name.split(".fa")[0]` used by `get_indices`. -/
def pySplitHead (s sep : String) : String :=
  let i := strFind s.toList sep.toList
  if i < 0 then s else String.mk (s.toList.take i.toNat)

def dictGetStr (l : List (String × List Char)) (k : String) : Option (List Char) :=
  l.foldl (fun acc p => if p.1 = k then some p.2 else acc) none

/-- The mapper-building loop of `get_indices` (sse_func.py lines 763-778):
each residue is matched to the next occurrence of its letter in the row from
the running column index; a truncated residue gets the sentinel -1 without
consuming a column; when the row is exhausted the mapper entry keeps its
initial value 0. -/
def buildMapper (row : List Char) (tmap : Option (List Bool)) :
    List Char → ℕ → ℕ → List ℤ
  | [], _, _ => []
  | c :: rest, i, j =>
    if (match tmap with | none => false | some t => t.getD i false) then
      (-1) :: buildMapper row tmap rest (i + 1) j
    else
      match (row.drop j).findIdx? (fun x => x = c) with
      | some k => ((j + k : ℕ) : ℤ) :: buildMapper row tmap rest (i + 1) (j + k + 1)
      | none => 0 :: buildMapper row tmap rest (i + 1) row.length

/-- `get_indices` (sse_func.py lines 711-782) for a pre-loaded alignment
dictionary: `none` models the `return None` failure paths. -/
def get_indices (name : String) (sequence : List Char)
    (alignment_dict : List (String × List Char))
    (truncation_map : Option (List Bool)) (aln_start_res : Option ℕ) :
    Option (List ℤ) :=
  let nam := pySplitHead name ".fa"
  match dictGetStr alignment_dict nam with
  | none => none
  | some align_seq =>
    match (match aln_start_res with
      | some s => some s
      | none => find_the_start align_seq sequence) with
    | none => none
    | some start => some (buildMapper align_seq truncation_map sequence 0 start)

/-- C7 is contradicted by the code: when the 15-residue seed is NOT a
substring of the gap-stripped alignment row, `get_indices` does not fail.
`str.find` returns -1 and `filter_id[locator]` silently picks the LAST
non-gap column as the start, so a (bogus) mapping is returned.  Here the
sequence "XYZ" does not occur in the row "ABCDEF" (second conjunct), yet the
call returns the mapping [0, 0, 0] instead of `none`. -/
theorem claim_C7 :
    get_indices "A" ['X', 'Y', 'Z'] [("A", ['A', 'B', 'C', 'D', 'E', 'F'])]
        none none = some [0, 0, 0] ∧
      strFind ['A', 'B', 'C', 'D', 'E', 'F'] ['X', 'Y', 'Z'] = -1 ∧
      get_indices "B" ['X', 'Y', 'Z'] [("A", ['A', 'B', 'C', 'D', 'E', 'F'])]
        none none = none := by
  refine ⟨by decide, by decide, by decide⟩

/-- Numpy slice assignment on an integer score array (half-open, clipped). -/
def setRangeZ (l : List ℤ) (a b : ℕ) (v : ℤ) : List ℤ :=
  (List.range l.length).map fun i => if a ≤ i ∧ i < b then v else l.getD i 0

/-- The score array of `find_boundaries` over integer scores: the scores the
source ever writes are -1, +1 and the coil weight, so for integer coil
weights (the default is 0) this is the same array as `scoredSeq`, see
`scoredSeqZ_cast`. -/
def scoredSeqZ (seq_len : ℕ) (coil : ℤ) (helices sheets : List (ℕ × ℕ)) : List ℤ :=
  sheets.foldl (fun acc p => setRangeZ acc p.1 p.2 1)
    (helices.foldl (fun acc p => setRangeZ acc p.1 p.2 (-1)) (List.replicate seq_len coil))

theorem length_setRangeZ (l : List ℤ) (a b : ℕ) (v : ℤ) :
    (setRangeZ l a b v).length = l.length := by
  simp [setRangeZ]

theorem getD_setRangeZ (l : List ℤ) (a b : ℕ) (v : ℤ) (i : ℕ) (h : i < l.length) :
    (setRangeZ l a b v).getD i 0 = if a ≤ i ∧ i < b then v else l.getD i 0 := by
  unfold setRangeZ
  rw [getD_map_range _ _ _ _ h]

theorem length_foldl_setRangeZ (ps : List (ℕ × ℕ)) (v : ℤ) (acc : List ℤ) :
    (ps.foldl (fun a p => setRangeZ a p.1 p.2 v) acc).length = acc.length := by
  induction ps generalizing acc with
  | nil => rfl
  | cons p t ih => simpa [length_setRangeZ] using ih (setRangeZ acc p.1 p.2 v)

theorem getD_foldl_setRangeZ (ps : List (ℕ × ℕ)) (v : ℤ) (acc : List ℤ) (i : ℕ)
    (h : i < acc.length) :
    (ps.foldl (fun a p => setRangeZ a p.1 p.2 v) acc).getD i 0 =
      if ∃ p ∈ ps, p.1 ≤ i ∧ i < p.2 then v else acc.getD i 0 := by
  induction ps generalizing acc with
  | nil => simp
  | cons p t ih =>
    have h' : i < (setRangeZ acc p.1 p.2 v).length := by rwa [length_setRangeZ]
    rw [List.foldl_cons, ih _ h', getD_setRangeZ _ _ _ _ _ h]
    by_cases hex : ∃ q ∈ t, q.1 ≤ i ∧ i < q.2
    · simp [hex]
    · by_cases hp : p.1 ≤ i ∧ i < p.2
      · simp [hex, hp]
      · simp only [hex, if_false]
        have hnone : ¬ ∃ q ∈ p :: t, q.1 ≤ i ∧ i < q.2 := by
          rintro ⟨q, hq, hqi⟩
          rcases List.mem_cons.mp hq with rfl | hq'
          · exact hp hqi
          · exact hex ⟨q, hq', hqi⟩
        rw [if_neg hp, if_neg hnone]

theorem scoredSeqZ_getD (seq_len : ℕ) (coil : ℤ) (helices sheets : List (ℕ × ℕ))
    (i : ℕ) (h : i < seq_len) :
    (scoredSeqZ seq_len coil helices sheets).getD i 0 =
      if ∃ p ∈ sheets, p.1 ≤ i ∧ i < p.2 then 1
      else if ∃ p ∈ helices, p.1 ≤ i ∧ i < p.2 then -1
      else coil := by
  unfold scoredSeqZ
  have hlen : i < (helices.foldl (fun a p => setRangeZ a p.1 p.2 (-1))
      (List.replicate seq_len coil)).length := by
    rw [length_foldl_setRangeZ, List.length_replicate]; exact h
  rw [getD_foldl_setRangeZ _ _ _ _ hlen,
    getD_foldl_setRangeZ _ _ _ _ (by rwa [List.length_replicate])]
  have : (List.replicate seq_len coil).getD i 0 = coil := by
    rw [List.getD_eq_getElem?_getD, List.getElem?_replicate]
    simp [h]
  rw [this]

/-- For integer coil weights the integer score array agrees with the rational
one of `scoredSeq`, entry by entry. -/
theorem scoredSeqZ_cast (seq_len : ℕ) (coil : ℤ) (helices sheets : List (ℕ × ℕ))
    (i : ℕ) (h : i < seq_len) :
    ((scoredSeqZ seq_len coil helices sheets).getD i 0 : ℚ) =
      (scoredSeq seq_len (coil : ℚ) helices sheets).getD i 0 := by
  rw [scoredSeqZ_getD _ _ _ _ _ h, scoredSeq_getD _ _ _ _ _ h]
  by_cases h1 : ∃ p ∈ sheets, p.1 ≤ i ∧ i < p.2
  · rw [if_pos h1, if_pos h1]; norm_num
  · rw [if_neg h1, if_neg h1]
    by_cases h2 : ∃ p ∈ helices, p.1 ≤ i ∧ i < p.2
    · rw [if_pos h2, if_pos h2]; norm_num
    · rw [if_neg h2, if_neg h2]

/-- `np.convolve`-style read of the score array: out-of-range positions
contribute 0. -/
def getZZ (l : List ℤ) (j : ℤ) : ℤ :=
  if j < 0 then 0 else l.getD j.toNat 0

/-- `np.convolve(scored_seq, np.ones([bracket_size]), mode='same')` for a
kernel no longer than the signal (sse_func.py line 357). -/
def smoothSignal (scored : List ℤ) (bracket : ℕ) : List ℤ :=
  (List.range scored.length).map fun i =>
    ((List.range bracket).map fun t =>
      getZZ scored ((i : ℤ) + (((bracket - 1) / 2 : ℕ) : ℤ) - (t : ℤ))).sum

/-- One pass of the zero-sign absorption `asign[sz] = np.roll(asign, 1)[sz]`
(sse_func.py lines 281-284): every zero entry takes the value of its cyclic
left neighbour, simultaneously. -/
def signsFillStep (a : List ℤ) : List ℤ :=
  (List.range a.length).map fun k =>
    if a.getD k 0 = 0 then a.getD ((k + a.length - 1) % a.length) 0 else a.getD k 0

/-- The `while sz.any()` loop of `detect_signchange`; on an all-zero signal
the Python loop never terminates, modelled by fuel exhaustion (`none`). -/
def signsFill : ℕ → List ℤ → Option (List ℤ)
  | 0, a => if (0 : ℤ) ∈ a then none else some a
  | f + 1, a => if (0 : ℤ) ∈ a then signsFill f (signsFillStep a) else some a

/-- `detect_signchange(signal, exclude_zero=True)` (sse_func.py lines
260-302, with `check=False` as called from `find_boundaries`): sign per
entry, zeros absorbed from the left cyclically, then the indices whose sign
differs from the cyclic predecessor; `none` when no boundary exists. -/
def detect_signchange (signal : List ℤ) : Option (List ℕ) :=
  let asign := signal.map (fun x => if x < 0 then (-1 : ℤ) else if x = 0 then 0 else 1)
  match signsFill signal.length asign with
  | none => none
  | some a =>
    let boundaries := (List.range a.length).filter fun k =>
      a.getD ((k + a.length - 1) % a.length) 0 ≠ a.getD k 0
    if boundaries = [] then none else some boundaries

/-- Python slice `l[a:b]` with signed bounds. -/
def pySliceZ (l : List ℤ) (a b : ℤ) : List ℤ :=
  let conv : ℤ → ℕ := fun i =>
    if i < 0 then (max 0 (i + l.length)).toNat else min i.toNat l.length
  (l.drop (conv a)).take (conv b - conv a)

/-- Python read `scored_seq[j]` as an `Option` (negative wrap-around,
`IndexError` as `none`). -/
def pyGetZ (l : List ℤ) (j : ℤ) : Option ℤ :=
  if 0 ≤ j then
    (if j.toNat < l.length then some (l.getD j.toNat 0) else none)
  else
    (if (-j).toNat ≤ l.length then some (l.getD (l.length - (-j).toNat) 0) else none)

/-- A `while True: idx += step; if pred(scored[idx]): break` walk of the
refinement loops in `find_boundaries` (sse_func.py lines 404-424); the fuel
covers every index the Python loop can visit before it either stops or
raises `IndexError` (`none`). -/
def walkUntil (scored : List ℤ) (pred : ℤ → Bool) (step : ℤ) :
    ℕ → ℤ → Option ℤ
  | 0, _ => none
  | f + 1, idx =>
    match pyGetZ scored (idx + step) with
    | none => none
    | some v =>
      if pred v then some (idx + step)
      else walkUntil scored pred step f (idx + step)

/-- Python slice `l[a:b]` on naturals (used for the helical counts). -/
def sliceN (l : List ℤ) (a b : ℕ) : List ℤ :=
  (l.drop a).take (b - a)

structure FBResult where
  gain_start : ℤ
  helix_end : ℤ
  sheet_start : ℤ
  subdomain_boundary : ℤ
  warns : Bool
deriving DecidableEq

/-- `find_boundaries` (sse_func.py lines 304-438), with its intermediate
refinement results exposed.  The three interval lists model
`sse_dict['AlphaHelix']`, `sse_dict['310Helix']` and `sse_dict['Strand']`
(`none` = key absent).  `warns` records whether the non-fatal warning print
at lines 430-433 fires: `nocoil` is True exactly when `coil_weight == 0` and
the guard is `not nocoil and 1 in scored_seq[helix_end+1:sheet_start]`, so
the warning can only fire when `coil_weight != 0`.  `none` models both the
`return None, None` paths and a crash of a refinement walk. -/
def find_boundaries_full (alphaHelix h310 strand : Option (List (ℕ × ℕ)))
    (seq_len bracket_size domain_threshold : ℕ) (coil_weight : ℤ)
    (truncate_N : Option ℕ) : Option FBResult :=
  match alphaHelix, strand with
  | some ah, some st =>
    let helices := ah ++ (match h310 with | some l => l | none => [])
    let scored := scoredSeqZ seq_len coil_weight helices st
    let signal := smoothSignal scored bracket_size
    match detect_signchange signal with
    | none => none
    | some boundaries =>
      let m := boundaries.length - 1
      let countHel : ℕ → ℕ := fun k =>
        (sliceN scored (boundaries.getD k 0) (boundaries.getD (k + 1) 0)).count (-1)
      match (List.range m).reverse.find? (fun k => decide (domain_threshold ≤ countHel k)) with
      | none => none
      | some maxk =>
        let gs0 : ℕ := boundaries.getD maxk 0
        let initial_boundary : ℕ := boundaries.getD (maxk + 1) 0
        let gain_start : ℤ := match truncate_N with
          | none => (gs0 : ℤ)
          | some tn =>
            match (scored.drop gs0).findIdx? (fun v => v = -1) with
            | some i => (gs0 : ℤ) + (i : ℤ) - (tn : ℤ)
            | none => (gs0 : ℤ)
        let sheet_start? :=
          if scored.getD initial_boundary 0 = 1 then
            walkUntil scored (fun v => !(v == 1)) (-1) (2 * seq_len + 2) (initial_boundary : ℤ)
          else
            walkUntil scored (fun v => v == 1) 1 (2 * seq_len + 2) (initial_boundary : ℤ)
        let helix_end? :=
          if !(scored.getD initial_boundary 0 == -1) then
            walkUntil scored (fun v => v == -1) (-1) (2 * seq_len + 2) (initial_boundary : ℤ)
          else
            walkUntil scored (fun v => !(v == -1)) 1 (2 * seq_len + 2) (initial_boundary : ℤ)
        match sheet_start?, helix_end? with
        | some sheet_start, some helix_end =>
          let nocoil : Bool := coil_weight = 0
          let warns := (!nocoil) &&
            decide ((1 : ℤ) ∈ pySliceZ scored (helix_end + 1) sheet_start)
          some { gain_start := gain_start, helix_end := helix_end,
                 sheet_start := sheet_start,
                 subdomain_boundary := Int.fdiv (helix_end + sheet_start) 2,
                 warns := warns }
        | _, _ => none
  | _, _ => none

/-- The pair actually returned by `find_boundaries`. -/
def find_boundaries (alphaHelix h310 strand : Option (List (ℕ × ℕ)))
    (seq_len bracket_size domain_threshold : ℕ) (coil_weight : ℤ)
    (truncate_N : Option ℕ) : Option (ℤ × ℤ) :=
  (find_boundaries_full alphaHelix h310 strand seq_len bracket_size
    domain_threshold coil_weight truncate_N).map
      (fun r => (r.gain_start, r.subdomain_boundary))

/-- C5 is contradicted by the code: with `coil_weight = 0` the warning can
never fire.  On this input the boundary is computed (refined helix edge 9,
refined strand edge 15, boundary 12) and the strand residue 11 carries a
non-coil score strictly between the two edges, yet `warns = false`, because
the source guards the warning with `not nocoil` where `nocoil` is True
exactly when `coil_weight == 0` (sse_func.py lines 425-433). -/
theorem claim_C5 :
    find_boundaries_full (some [(0, 10)]) none (some [(11, 12), (15, 23)])
        23 5 5 0 none =
      some { gain_start := 0, helix_end := 9, sheet_start := 15,
             subdomain_boundary := 12, warns := false } ∧
      (scoredSeqZ 23 0 [(0, 10)] [(11, 12), (15, 23)]).getD 11 0 = 1 ∧
      ((9 : ℤ) < 11 ∧ (11 : ℤ) < 15) := by
  refine ⟨by decide, by decide, by decide⟩
